import Mathlib

/-!
Verification of the SimpleXray perf-net data-plane substrate.

Shallow embedding of the native C++ sources under
`app/src/main/jni/perf-net/src/`:

* `hyper/hyper_ring.cpp`     — packet ring (`nativeCreateRing`,
  `nativeRingWrite`, `nativeRingRead`)
* `hyper/hyper_burst.hpp/.cpp` — EWMA burst estimator
* `hyper/hyper_crypto.cpp`   — crypto worker pool
* `perf_connection_pool.cpp` — pinned connection pool
* `perf_ring_buffer.cpp`     — byte-stream ring buffer

Machine integers are modelled as `Nat`/`Int` with explicit reductions
modulo `2^w` exactly where the C code's fixed-width arithmetic wraps or
casts.  JNI byte arrays are `List Nat`.  Fallible allocations
(`malloc`, `posix_memalign`, `socket`, `fcntl`) are threaded in as
boolean oracles, one per allocation site.  The `double` arithmetic of
the burst estimator is modelled exactly over `ℚ`.
-/

/-- Modulus of a 64-bit machine word. -/
def U64 : Nat := 2 ^ 64

/-- Modulus of a 32-bit machine word. -/
def U32 : Nat := 2 ^ 32

/-- Modulus of a 16-bit machine word. -/
def U16 : Nat := 2 ^ 16

/-- C cast of a signed 64-bit value (`jlong`) to `uint64_t`: reduction mod `2^64`. -/
def uint64OfInt (x : Int) : Nat := (x % (U64 : Int)).toNat

/-- C cast of a signed 32-bit value (`jint`) to `uint32_t`: reduction mod `2^32`. -/
def uint32OfInt (x : Int) : Nat := (x % (U32 : Int)).toNat

/-- C cast of a signed 32-bit value (`jint`) to `uint16_t`: reduction mod `2^16`. -/
def uint16OfInt (x : Int) : Nat := (x % (U16 : Int)).toNat

/-- C cast of a `uint64_t` value to `jint` (signed 32-bit): truncate then
reinterpret as two's complement. -/
def jintOfUInt64 (n : Nat) : Int :=
  if n % U32 < 2 ^ 31 then ((n % U32 : Nat) : Int)
  else ((n % U32 : Nat) : Int) - (U32 : Int)

/-- Unsigned 64-bit subtraction `a - b` (both arguments already reduced
mod `2^64`), as it behaves in C. -/
def u64sub (a b : Nat) : Nat := (a + U64 - b % U64) % U64

/-- PacketMeta (hyper_backend.hpp, lines 14-21): `timestampNs` is
`uint64_t`, `length` is `uint32_t`, `flags` and `queue` are `uint16_t`. -/
structure PacketMeta where
  timestampNs : Nat
  length : Nat
  flags : Nat
  queue : Nat
deriving Repr, DecidableEq

/-- RingSlot (hyper_backend.hpp, lines 30-36): metadata plus the payload
buffer the slot's `payload` pointer designates.  The pointed-to bytes are
modelled by value: overwriting the slot's buffer replaces `payload`. -/
structure RingSlot where
  meta : PacketMeta
  payload : List Nat
  payloadSize : Nat
deriving Repr, DecidableEq

/-- The all-zero metadata produced by `memset` in `nativeCreateRing`. -/
def zeroMeta : PacketMeta := ⟨0, 0, 0, 0⟩

/-- The all-zero slot produced by `memset` in `nativeCreateRing`. -/
def zeroSlot : RingSlot := ⟨zeroMeta, [], 0⟩

/-- HyperRing (hyper_ring.cpp, lines 31-49).  `writePos`/`readPos` hold the
stored `uint64_t` counter values.  `hasPool` records whether the optional
payload slab was allocated, `payloadPoolSize` its byte size
(`pow2_capacity * payloadSize`).  `poolCopies` is a ghost log of the
`(byte_offset, byte_count)` pairs of every `memcpy` issued into the slab
(hyper_ring.cpp, lines 168-169); it has no effect on behaviour. -/
structure HyperRing where
  capacity : Nat
  writePos : Nat
  readPos : Nat
  slots : List RingSlot
  hasPool : Bool
  payloadPoolSize : Nat
  poolCopies : List (Nat × Nat)
deriving Repr, DecidableEq

/-- One smearing step `x | (x >> s)` of `round_up_power2`. -/
def smearStep (x s : Nat) : Nat := x ||| (x >>> s)

/-- round_up_power2 (hyper_ring.cpp, lines 17-28; the identical copy in
perf_ring_buffer.cpp, lines 24-34): round `n` up to the next power of two
by smearing the bits of `n - 1` downwards.  `size_t` is 64-bit on the
target, so the `n |= n >> 32` step is executed. -/
def round_up_power2 (n : Nat) : Nat :=
  if n ≤ 1 then 1
  else
    let m0 := n - 1
    let m1 := smearStep m0 1
    let m2 := smearStep m1 2
    let m3 := smearStep m2 4
    let m4 := smearStep m3 8
    let m5 := smearStep m4 16
    let m6 := smearStep m5 32
    m6 + 1

/-- nativeCreateRing (hyper_ring.cpp, lines 56-109).  `slotsOk` is the
outcome of the `posix_memalign` for the slot array, `poolOk` the outcome
of the `posix_memalign` for the optional payload slab.  A failed slab
allocation is tolerated by the code (lines 92-100: the success branch has
no `else`); the ring is then created without a slab. -/
def nativeCreateRing (capacity payloadSize : Int) (slotsOk poolOk : Bool) :
    Option HyperRing :=
  if capacity ≤ 0 ∨ capacity > 64 * 1024 then none
  else if ¬ slotsOk then none
  else
    let pow2cap := round_up_power2 capacity.toNat
    let pool := decide (payloadSize > 0) && poolOk
    some { capacity := pow2cap
           writePos := 0
           readPos := 0
           slots := List.replicate pow2cap zeroSlot
           hasPool := pool
           payloadPoolSize := if pool then pow2cap * payloadSize.toNat else 0
           poolCopies := [] }

/-- Arguments of `nativeRingWrite` after the `handle`: the Java byte
array, `offset`, `length`, `timestampNs`, `flags`, `queue`. -/
structure WriteArgs where
  data : List Nat
  offset : Int
  length : Int
  timestampNs : Int
  flags : Int
  queue : Int
deriving Repr, DecidableEq

/-- The `PacketMeta` stored by `nativeRingWrite` (hyper_ring.cpp, lines
160-163): each supplied value is cast to the width of its field. -/
def metaOfArgs (a : WriteArgs) : PacketMeta :=
  { timestampNs := uint64OfInt a.timestampNs
    length := uint32OfInt a.length
    flags := uint16OfInt a.flags
    queue := uint16OfInt a.queue }

/-- The payload bytes copied by `nativeRingWrite`: `length` bytes of the
source array starting at `offset`. -/
def payloadOfArgs (a : WriteArgs) : List Nat :=
  (a.data.drop a.offset.toNat).take a.length.toNat

/-- nativeRingWrite (hyper_ring.cpp, lines 115-192).  Returns the slot
index standing for the returned slot-pointer handle (`none` = the null
handle) together with the updated ring.  `mallocOk` is the outcome of the
`malloc` in the non-slab branch.  Notes kept faithful to the source:

* the free-space check (lines 149-153) masks the cursor difference with
  `capacity_mask` before comparing against `capacity`;
* the slab branch (lines 166-171) is taken when the slab exists and
  `length <= 1500`, and copies to slab byte offset `slot_idx * 1500`
  (recorded in the `poolCopies` ghost log);
* metadata is written to the slot (lines 160-163) before the payload
  copy, so a failed `malloc` leaves the metadata modified but does not
  advance `write_pos`. -/
def nativeRingWrite (r : HyperRing) (a : WriteArgs) (mallocOk : Bool) :
    Option Nat × HyperRing :=
  if a.length < 0 ∨ a.offset < 0 then (none, r)
  else if a.offset + a.length > (a.data.length : Int) then (none, r)
  else
    let used := u64sub r.writePos r.readPos &&& (r.capacity - 1)
    if used ≥ r.capacity then (none, r)
    else
      let slotIdx := r.writePos &&& (r.capacity - 1)
      let meta := metaOfArgs a
      if r.hasPool && decide (a.length ≤ 1500) then
        let slot : RingSlot := ⟨meta, payloadOfArgs a, a.length.toNat⟩
        (some slotIdx,
         { r with slots := r.slots.set slotIdx slot
                  writePos := (r.writePos + 1) % U64
                  poolCopies := r.poolCopies ++ [(slotIdx * 1500, a.length.toNat)] })
      else if mallocOk then
        let slot : RingSlot := ⟨meta, payloadOfArgs a, a.length.toNat⟩
        (some slotIdx,
         { r with slots := r.slots.set slotIdx slot
                  writePos := (r.writePos + 1) % U64 })
      else
        (none,
         { r with slots := r.slots.set slotIdx
                    { r.slots.getD slotIdx zeroSlot with meta := meta } })

/-- nativeRingRead (hyper_ring.cpp, lines 227-253).  Returns the slot
index and the slot the returned pointer designates (`none` = null handle,
the Empty signal), together with the updated ring. -/
def nativeRingRead (r : HyperRing) : Option (Nat × RingSlot) × HyperRing :=
  if r.readPos ≥ r.writePos then (none, r)
  else
    let slotIdx := r.readPos &&& (r.capacity - 1)
    (some (slotIdx, r.slots.getD slotIdx zeroSlot),
     { r with readPos := (r.readPos + 1) % U64 })

/-- Occupancy of the ring in the spec's sense: unread items
`write_pos - read_pos` (the cursors are monotonic in every scenario
considered here). -/
def occupancy (r : HyperRing) : Nat := r.writePos - r.readPos

/-- A default ring for extracting from `Option`. -/
def emptyRing : HyperRing := ⟨0, 0, 0, [], false, 0, []⟩

/-- The slot contents a successful `nativeRingWrite` stores: the cast
metadata plus the copied payload bytes. -/
def slotOfArgs (a : WriteArgs) : RingSlot :=
  ⟨metaOfArgs a, payloadOfArgs a, a.length.toNat⟩

/-- Validity of the `nativeRingWrite` arguments: the checks of
hyper_ring.cpp lines 123 and 133-136 pass. -/
def validArgs (a : WriteArgs) : Prop :=
  0 ≤ a.offset ∧ 0 ≤ a.length ∧ a.offset + a.length ≤ (a.data.length : Int)

/-- Placeholder write-arguments record used with `List.getD`. -/
def dummyArgs : WriteArgs := ⟨[], 0, 0, 0, 0, 0⟩

instance (a : WriteArgs) : Decidable (validArgs a) :=
  inferInstanceAs (Decidable (_ ∧ _ ∧ _))

/-- C3 witness ring: capacity 2, no slab. -/
def c3wRing : HyperRing := (nativeCreateRing 2 0 true true).getD emptyRing

/-- C3 witness write sequence: two one-byte writes with distinct
payloads and metadata. -/
def c3wList : List WriteArgs := [⟨[9], 0, 1, 1, 2, 3⟩, ⟨[8], 0, 1, 4, 5, 6⟩]

/-- Perform a sequence of `nativeRingWrite` calls (each with a succeeding
`malloc`), collecting the returned handles. -/
def writeMany (r : HyperRing) (ws : List WriteArgs) : List (Option Nat) × HyperRing :=
  match ws with
  | [] => ([], r)
  | a :: rest =>
    let p := nativeRingWrite r a true
    let q := writeMany p.2 rest
    (p.1 :: q.1, q.2)

/-- Perform `n` consecutive `nativeRingRead` calls, collecting the
returned handles. -/
def readMany (r : HyperRing) (n : Nat) : List (Option (Nat × RingSlot)) × HyperRing :=
  match n with
  | 0 => ([], r)
  | Nat.succ m =>
    let p := nativeRingRead r
    let q := readMany p.2 m
    (p.1 :: q.1, q.2)

/-! ### Byte-stream ring buffer (perf_ring_buffer.cpp) -/

/-- RingBuffer (perf_ring_buffer.cpp, lines 39-55).  `data` is the byte
store of length `capacity`; counters hold the stored machine values. -/
structure RingBuffer where
  capacity : Nat
  writePos : Nat
  writeSeq : Nat
  readPos : Nat
  readSeq : Nat
  data : List Nat
deriving Repr, DecidableEq

/-- nativeCreateRingBuffer (perf_ring_buffer.cpp, lines 62-100).
`posix_memalign` leaves the byte store uninitialized; zeros stand in for
the indeterminate initial contents. -/
def nativeCreateRingBuffer (capacity : Int) (allocOk : Bool) : Option RingBuffer :=
  if capacity ≤ 0 ∨ capacity > 64 * 1024 * 1024 then none
  else if ¬ allocOk then none
  else
    let pow2cap := round_up_power2 capacity.toNat
    some ⟨pow2cap, 0, 0, 0, 0, List.replicate pow2cap 0⟩

/-- The sequence-aware used-space computation of `nativeRingBufferWrite`
(perf_ring_buffer.cpp, lines 155-174), including the clamp to
`capacity`.  All subtractions are unsigned 64-bit. -/
def rbUsed (rb : RingBuffer) : Nat :=
  let raw :=
    if rb.writeSeq = rb.readSeq then
      if rb.writePos ≥ rb.readPos then rb.writePos - rb.readPos
      else u64sub rb.capacity (rb.readPos - rb.writePos)
    else u64sub rb.capacity (u64sub rb.readPos (rb.writePos % rb.capacity))
  if raw > rb.capacity then rb.capacity else raw

/-- Free space as `nativeRingBufferWrite` computes it
(perf_ring_buffer.cpp, line 176). -/
def rbAvailable (rb : RingBuffer) : Nat := rb.capacity - rbUsed rb

/-- Overwrite `dst` in place starting at index `i` with the bytes of
`bs`, modelling a `memcpy` into the buffer. -/
def listCopy (dst : List Nat) (i : Nat) (bs : List Nat) : List Nat :=
  match bs with
  | [] => dst
  | b :: rest => listCopy (dst.set i b) (i + 1) rest

/-- The `jint` (32-bit signed, two's-complement) sum of two values, as
the compiled `offset + length` of the bounds check evaluates: signed
overflow wraps on the target ABI.  `2147483648 = 2^31` and
`4294967296 = 2^32`. -/
def jintAdd (a b : Int) : Int :=
  (a + b + 2147483648) % 4294967296 - 2147483648

/-- nativeRingBufferWrite (perf_ring_buffer.cpp, lines 105-251).  `srcOk`
is the outcome of `GetPrimitiveArrayCritical`.  Returns the `jint` result
together with the updated buffer.  Faithful details:

* the bounds check `offset + length > array_length` (line 124) adds the
  two `jint` arguments in 32-bit signed arithmetic, so the sum wraps at
  `2^31` and an out-of-bounds slice with `offset + length ≥ 2^31` passes
  the check;
* the two defensive bounds checks before the memcpys (lines 198 and 217)
  are kept; the second one fires after the first copy already happened,
  so its failure state carries the partially copied data;
* on wraparound (`new_write_pos >= UINT64_MAX - capacity`, line 237) the
  sequence is bumped modulo `0xFFFFFFFF` and the position reduced by the
  capacity mask. -/
def nativeRingBufferWrite (rb : RingBuffer) (src : List Nat) (offset length : Int)
    (srcOk : Bool) : Int × RingBuffer :=
  if length < 0 ∨ offset < 0 then (-1, rb)
  else if jintAdd offset length > (src.length : Int) then (-1, rb)
  else if ¬ srcOk then (-1, rb)
  else
    let len := length.toNat
    if rbAvailable rb < len then (0, rb)
    else if rb.writePos > (U64 - 1) - len then (-1, rb)
    else
      let pos := rb.writePos &&& (rb.capacity - 1)
      let toEnd := rb.capacity - pos
      let toWrite := min len toEnd
      if pos + toWrite > rb.capacity then (-1, rb)
      else
        let data1 := listCopy rb.data pos ((src.drop offset.toNat).take toWrite)
        let remaining := len - toWrite
        if len > toWrite then
          if remaining > rb.capacity then (-1, { rb with data := data1 })
          else
            let data2 := listCopy data1 0 ((src.drop (offset.toNat + toWrite)).take remaining)
            let newPos := rb.writePos + len
            if newPos ≥ (U64 - 1) - rb.capacity then
              (length, { rb with data := data2
                                 writePos := newPos &&& (rb.capacity - 1)
                                 writeSeq := (rb.writeSeq + 1) % (U32 - 1) })
            else
              (length, { rb with data := data2, writePos := newPos })
        else
          let newPos := rb.writePos + len
          if newPos ≥ (U64 - 1) - rb.capacity then
            (length, { rb with data := data1
                               writePos := newPos &&& (rb.capacity - 1)
                               writeSeq := (rb.writeSeq + 1) % (U32 - 1) })
          else
            (length, { rb with data := data1, writePos := newPos })

/-! ### Burst estimator (hyper_burst.hpp / hyper_burst.cpp) -/

/-- BurstTracker (hyper_burst.hpp, lines 14-24).  The `double` fields are
modelled exactly over `ℚ`; `level` holds the raw 32-bit value stored into
the `BurstLevel` enum field. -/
structure BurstTracker where
  alpha : ℚ
  currentBurst : ℚ
  packetCount : Nat
  byteCount : Nat
  windowStartNs : Nat
  level : Int
deriving Repr, DecidableEq

/-- The level classification chain of `update_burst_intensity`
(hyper_burst.hpp, lines 42-52), as the enum's numeric values
`BURST_NONE = 0 .. BURST_EXTREME = 4`. -/
def classifyBurst (burst : ℚ) : Int :=
  if burst > 100000000 then 4
  else if burst > 50000000 then 3
  else if burst > 10000000 then 2
  else if burst > 1000000 then 1
  else 0

/-- update_burst_intensity (hyper_burst.hpp, lines 29-62).  `bytes` and
`timestampNs` are the already-cast `uint64_t` arguments.  The window
check subtracts in unsigned 64-bit arithmetic; the intensity is
`byteCount` divided by the window length in seconds (bytes per second);
the EWMA uses the local constant `alpha = 0.1` of line 30.  The trailing
counter increments wrap at `2^64`. -/
def update_burst_intensity (t : BurstTracker) (bytes timestampNs : Nat) : BurstTracker :=
  let delta := u64sub timestampNs t.windowStartNs
  let t1 :=
    if delta > 10000000 then
      let intensity : ℚ := (t.byteCount : ℚ) / ((delta : ℚ) / 1000000000)
      let newBurst := (1 / 10 : ℚ) * intensity + (1 - 1 / 10 : ℚ) * t.currentBurst
      { t with currentBurst := newBurst
               level := classifyBurst newBurst
               packetCount := 0
               byteCount := 0
               windowStartNs := timestampNs }
    else t
  { t1 with packetCount := (t1.packetCount + 1) % U64
            byteCount := (t1.byteCount + bytes) % U64 }

/-- Operations of the burst JNI surface (hyper_burst.cpp):
`nativeInitBurst` (its clock reading is the operation's argument),
`nativeUpdateBurst` (raw `jlong` arguments), and `nativeSubmitBurstHint`
(raw `jint` argument, stored into the enum field unchecked). -/
inductive BurstOp where
  | initOp (clockNs : Nat)
  | updateOp (bytes timestampNs : Int)
  | hintOp (level : Int)
deriving Repr, DecidableEq

/-- The process-global `g_burst_tracker` before any call: static storage,
zero-initialized. -/
def burstZero : BurstTracker := ⟨0, 0, 0, 0, 0, 0⟩

/-- One JNI call on the global tracker (hyper_burst.cpp, lines 27-76). -/
def burstStep (t : BurstTracker) (op : BurstOp) : BurstTracker :=
  match op with
  | .initOp now => ⟨1 / 10, 0, 0, 0, now, 0⟩
  | .updateOp bytes ts => update_burst_intensity t (uint64OfInt bytes) (uint64OfInt ts)
  | .hintOp lvl => { t with level := lvl }

/-- Run a sequence of burst operations from the process start state. -/
def burstRun (ops : List BurstOp) : BurstTracker := ops.foldl burstStep burstZero

/-- Membership of a stored level value in the `BurstLevel` enum
(hyper_backend.hpp, lines 67-73). -/
def levelInEnum (l : Int) : Prop := 0 ≤ l ∧ l ≤ 4

/-! ### Connection pool (perf_connection_pool.cpp) -/

/-- ConnectionSlot (perf_connection_pool.cpp, lines 43-50).  The remote
endpoint string is abstracted to a `Nat` identifier; `typ` is the
`PoolType` tag. -/
structure ConnectionSlot where
  fd : Int
  in_use : Bool
  connected : Bool
  remote_addr : Nat
  remote_port : Int
  typ : Nat
deriving Repr, DecidableEq

/-- A slot as produced by `std::vector::resize` value-initialization plus
the explicit resets of `nativeInitConnectionPool` (lines 111-116). -/
def freshSlot (pidx : Nat) : ConnectionSlot := ⟨-1, false, false, 0, 0, pidx⟩

/-- Placeholder slot used with `List.getD`. -/
def dummySlot : ConnectionSlot := ⟨-1, false, false, 0, 0, 0⟩

/-- ConnectionPool (perf_connection_pool.cpp, lines 52-56).  The mutex is
not modelled: every JNI operation holds it for its whole body, so
concurrent executions serialize into the operation sequences considered
here. -/
structure ConnPool where
  slots : List ConnectionSlot
  initialized : Bool
deriving Repr, DecidableEq

/-- The three `g_pools` plus bookkeeping: `nextFd` is the next file
descriptor the kernel would hand out (fresh, strictly increasing),
`closedLog` the ghost log of every `close(fd)` call, `openedLog` the
ghost log of every successful `socket()` call. -/
structure ConnState where
  pool0 : ConnPool
  pool1 : ConnPool
  pool2 : ConnPool
  nextFd : Nat
  closedLog : List Int
  openedLog : List Int
deriving Repr, DecidableEq

/-- Select `g_pools[i]` for `i < 3`. -/
def getPool (st : ConnState) (i : Nat) : ConnPool :=
  if i = 0 then st.pool0 else if i = 1 then st.pool1 else st.pool2

/-- Replace `g_pools[i]` for `i < 3`. -/
def setPool (st : ConnState) (i : Nat) (p : ConnPool) : ConnState :=
  if i = 0 then { st with pool0 := p }
  else if i = 1 then { st with pool1 := p }
  else { st with pool2 := p }

/-- Clamp of the requested total pool size to `[4, 16]`
(perf_connection_pool.cpp, lines 72-79). -/
def clampPoolSize (n : Int) : Nat :=
  if n < 4 then 4 else if n > 16 then 16 else n.toNat

/-- H2_STREAM share `(pool_size * 40 + 50) / 100` (line 86). -/
def h2SizeOf (t : Nat) : Nat := (t * 40 + 50) / 100

/-- VISION share `(pool_size * 35 + 50) / 100` (line 87). -/
def visionSizeOf (t : Nat) : Nat := (t * 35 + 50) / 100

/-- RESERVE share: the signed remainder (line 88). -/
def reserveSizeOf (t : Nat) : Int := (t : Int) - h2SizeOf t - visionSizeOf t

/-- The floor of one slot per class (lines 91-93). -/
def floorOne (n : Int) : Int := if n < 1 then 1 else n

/-- The fds a pool's reinitialization or destruction closes: every
nonnegative slot fd, in slot order. -/
def poolOpenFds (p : ConnPool) : List Int :=
  (p.slots.map (fun s => s.fd)).filter (fun f => decide (0 ≤ f))

/-- nativeInitConnectionPool (perf_connection_pool.cpp, lines 67-123):
clamp, compute class sizes, and for each of the three pools close any
open fds, then resize with fully reset slots. -/
def nativeInitConnectionPool (st : ConnState) (n : Int) : ConnState :=
  let t := clampPoolSize n
  { st with
    pool0 := ⟨List.replicate (floorOne (h2SizeOf t)).toNat (freshSlot 0), true⟩
    pool1 := ⟨List.replicate (floorOne (visionSizeOf t)).toNat (freshSlot 1), true⟩
    pool2 := ⟨List.replicate (floorOne (reserveSizeOf t)).toNat (freshSlot 2), true⟩
    closedLog := st.closedLog ++ poolOpenFds st.pool0 ++ poolOpenFds st.pool1
                   ++ poolOpenFds st.pool2 }

/-- Result of the first-free-slot scan of `nativeGetPooledSocket`
(perf_connection_pool.cpp, lines 157-216). -/
structure AcquireOut where
  ret : Int
  slots : List ConnectionSlot
  nextFd : Nat
  closed : List Int
  opened : List Int
deriving Repr, DecidableEq

/-- The scan of `nativeGetPooledSocket`: find the first slot that is not
in use; create a socket lazily if it has none.  `sockOk` is the outcome
of `socket()`; `cfgOk` collapses the two `fcntl` calls, whose failure
paths both close the fresh fd and return `-1` without storing it
(lines 168-178); `setsockopt` failures are only logged and need no
oracle. -/
def acquireLoop (slots : List ConnectionSlot) (nextFd : Nat) (sockOk cfgOk : Bool) :
    AcquireOut :=
  match slots with
  | [] => ⟨-1, [], nextFd, [], []⟩
  | s :: rest =>
    if s.in_use then
      let o := acquireLoop rest nextFd sockOk cfgOk
      ⟨o.ret, s :: o.slots, o.nextFd, o.closed, o.opened⟩
    else if s.fd < 0 then
      if ¬ sockOk then ⟨-1, s :: rest, nextFd, [], []⟩
      else if ¬ cfgOk then
        ⟨-1, s :: rest, nextFd + 1, [(nextFd : Int)], [(nextFd : Int)]⟩
      else
        ⟨(nextFd : Int),
         { s with fd := (nextFd : Int), in_use := true, connected := false } :: rest,
         nextFd + 1, [], [(nextFd : Int)]⟩
    else
      ⟨s.fd, { s with in_use := true, connected := false } :: rest, nextFd, [], []⟩

/-- nativeGetPooledSocket (perf_connection_pool.cpp, lines 143-220). -/
def nativeGetPooledSocket (st : ConnState) (poolType : Int) (sockOk cfgOk : Bool) :
    Int × ConnState :=
  if poolType < 0 ∨ poolType ≥ 3 then (-1, st)
  else
    let p := getPool st poolType.toNat
    let o := acquireLoop p.slots st.nextFd sockOk cfgOk
    (o.ret,
     { setPool st poolType.toNat ⟨o.slots, p.initialized⟩ with
       nextFd := o.nextFd
       closedLog := st.closedLog ++ o.closed
       openedLog := st.openedLog ++ o.opened })

/-- findSlotIndexByFd (perf_connection_pool.cpp, lines 129-136). -/
def findSlotIndexByFd (slots : List ConnectionSlot) (fd : Int) : Int :=
  match slots with
  | [] => -1
  | s :: rest =>
    if s.fd = fd then 0
    else
      let r := findSlotIndexByFd rest fd
      if r < 0 then -1 else r + 1

/-- Outcome of the non-blocking `connect` system call. -/
inductive ConnectOutcome where
  | ok
  | inProgress
  | failed
deriving Repr, DecidableEq

/-- nativeConnectPooledSocket (perf_connection_pool.cpp, lines 243-329),
the slot-index variant.  `hostOk` is the outcome of
`GetStringUTFChars`, `addrOk` of `inet_pton`; `outcome` is the `connect`
result.  The endpoint copy into `remote_addr` (lines 305-308) happens
before the result branch, so it persists even when `connect` fails. -/
def nativeConnectPooledSocket (st : ConnState) (poolType slotIndex : Int)
    (host : Nat) (port : Int) (hostOk addrOk : Bool) (outcome : ConnectOutcome) :
    Int × ConnState :=
  if poolType < 0 ∨ poolType ≥ 3 then (-1, st)
  else
    let p := getPool st poolType.toNat
    if slotIndex < 0 ∨ slotIndex ≥ (p.slots.length : Int) then (-1, st)
    else
      let s := p.slots.getD slotIndex.toNat dummySlot
      if s.fd < 0 ∨ ¬ s.in_use then (-1, st)
      else if ¬ hostOk then (-1, st)
      else if s.connected ∧ s.remote_addr = host ∧ s.remote_port = port then (0, st)
      else
        let s1 := if s.connected then { s with connected := false } else s
        if ¬ addrOk then
          (-1, setPool st poolType.toNat ⟨p.slots.set slotIndex.toNat s1, p.initialized⟩)
        else
          let s2 := { s1 with remote_addr := host }
          match outcome with
          | .ok =>
            (0, setPool st poolType.toNat
              ⟨p.slots.set slotIndex.toNat { s2 with connected := true, remote_port := port },
               p.initialized⟩)
          | .inProgress =>
            (0, setPool st poolType.toNat
              ⟨p.slots.set slotIndex.toNat { s2 with connected := false, remote_port := port },
               p.initialized⟩)
          | .failed =>
            (-1, setPool st poolType.toNat
              ⟨p.slots.set slotIndex.toNat s2, p.initialized⟩)

/-- nativeConnectPooledSocketByFd (perf_connection_pool.cpp, lines
334-403).  Differs from the slot-index variant: no shutdown of a prior
connection, and an in-progress result leaves `connected` untouched. -/
def nativeConnectPooledSocketByFd (st : ConnState) (poolType fd : Int)
    (host : Nat) (port : Int) (hostOk addrOk : Bool) (outcome : ConnectOutcome) :
    Int × ConnState :=
  if poolType < 0 ∨ poolType ≥ 3 ∨ fd < 0 then (-1, st)
  else
    let p := getPool st poolType.toNat
    let idx := findSlotIndexByFd p.slots fd
    if idx < 0 then (-1, st)
    else
      let s := p.slots.getD idx.toNat dummySlot
      if ¬ s.in_use then (-1, st)
      else if ¬ hostOk then (-1, st)
      else if s.connected ∧ s.remote_addr = host ∧ s.remote_port = port then (0, st)
      else if ¬ addrOk then (-1, st)
      else
        let s2 := { s with remote_addr := host }
        match outcome with
        | .ok =>
          (0, setPool st poolType.toNat
            ⟨p.slots.set idx.toNat { s2 with connected := true, remote_port := port },
             p.initialized⟩)
        | .inProgress =>
          (0, setPool st poolType.toNat
            ⟨p.slots.set idx.toNat { s2 with remote_port := port }, p.initialized⟩)
        | .failed =>
          (-1, setPool st poolType.toNat ⟨p.slots.set idx.toNat s2, p.initialized⟩)

/-- nativeReturnPooledSocket (perf_connection_pool.cpp, lines 446-487),
the slot-index variant.  `healthy` is the outcome of
`checkSocketHealth`.  Sequentially (the pool mutex is held) the
compare-and-swap of the slot fd against its just-read value always
succeeds, so the unhealthy path invalidates the fd and closes it. -/
def nativeReturnPooledSocket (st : ConnState) (poolType slotIndex : Int)
    (healthy : Bool) : ConnState :=
  if poolType < 0 ∨ poolType ≥ 3 then st
  else
    let p := getPool st poolType.toNat
    if slotIndex < 0 ∨ slotIndex ≥ (p.slots.length : Int) then st
    else
      let s := p.slots.getD slotIndex.toNat dummySlot
      if s.fd < 0 then
        setPool st poolType.toNat
          ⟨p.slots.set slotIndex.toNat { s with in_use := false }, p.initialized⟩
      else if ¬ healthy then
        { setPool st poolType.toNat
            ⟨p.slots.set slotIndex.toNat
              { s with fd := -1, connected := false, in_use := false }, p.initialized⟩ with
          closedLog := st.closedLog ++ [s.fd] }
      else
        setPool st poolType.toNat
          ⟨p.slots.set slotIndex.toNat { s with in_use := false }, p.initialized⟩

/-- nativeReturnPooledSocketByFd (perf_connection_pool.cpp, lines
492-541).  The slot is located by its fd, so the `expected_fd != fd`
branch (line 511) cannot fire sequentially; it is kept for fidelity. -/
def nativeReturnPooledSocketByFd (st : ConnState) (poolType fd : Int)
    (healthy : Bool) : ConnState :=
  if poolType < 0 ∨ poolType ≥ 3 ∨ fd < 0 then st
  else
    let p := getPool st poolType.toNat
    let idx := findSlotIndexByFd p.slots fd
    if idx < 0 then st
    else
      let s := p.slots.getD idx.toNat dummySlot
      if s.fd < 0 ∨ s.fd ≠ fd then
        setPool st poolType.toNat
          ⟨p.slots.set idx.toNat { s with in_use := false }, p.initialized⟩
      else if ¬ healthy then
        { setPool st poolType.toNat
            ⟨p.slots.set idx.toNat
              { s with fd := -1, connected := false, in_use := false }, p.initialized⟩ with
          closedLog := st.closedLog ++ [fd] }
      else
        setPool st poolType.toNat
          ⟨p.slots.set idx.toNat { s with in_use := false }, p.initialized⟩

/-- nativeDestroyConnectionPool (perf_connection_pool.cpp, lines
547-564): close every open fd and clear every pool. -/
def nativeDestroyConnectionPool (st : ConnState) : ConnState :=
  { st with
    pool0 := ⟨[], false⟩
    pool1 := ⟨[], false⟩
    pool2 := ⟨[], false⟩
    closedLog := st.closedLog ++ poolOpenFds st.pool0 ++ poolOpenFds st.pool1
                   ++ poolOpenFds st.pool2 }

/-- The JNI operation alphabet of the connection pool.  Oracle booleans
stand for the outcomes of the system calls inside each operation. -/
inductive ConnOp where
  | initOp (n : Int)
  | acquireOp (poolType : Int) (sockOk cfgOk : Bool)
  | connectSlotOp (poolType slotIndex : Int) (host : Nat) (port : Int)
      (hostOk addrOk : Bool) (outcome : ConnectOutcome)
  | connectFdOp (poolType fd : Int) (host : Nat) (port : Int)
      (hostOk addrOk : Bool) (outcome : ConnectOutcome)
  | releaseSlotOp (poolType slotIndex : Int) (healthy : Bool)
  | releaseFdOp (poolType fd : Int) (healthy : Bool)
  | destroyOp
deriving Repr, DecidableEq

/-- Apply one connection-pool operation. -/
def connStep (st : ConnState) (op : ConnOp) : ConnState :=
  match op with
  | .initOp n => nativeInitConnectionPool st n
  | .acquireOp pt so co => (nativeGetPooledSocket st pt so co).2
  | .connectSlotOp pt si h prt ho ao oc =>
      (nativeConnectPooledSocket st pt si h prt ho ao oc).2
  | .connectFdOp pt fd h prt ho ao oc =>
      (nativeConnectPooledSocketByFd st pt fd h prt ho ao oc).2
  | .releaseSlotOp pt si hl => nativeReturnPooledSocket st pt si hl
  | .releaseFdOp pt fd hl => nativeReturnPooledSocketByFd st pt fd hl
  | .destroyOp => nativeDestroyConnectionPool st

/-- Process start state: three empty pools, no fd ever opened or
closed.  Fd numbering starts at 3 (0-2 are the standard streams). -/
def connStart : ConnState := ⟨⟨[], false⟩, ⟨[], false⟩, ⟨[], false⟩, 3, [], []⟩

/-- Run a sequence of connection-pool operations from process start. -/
def connRun (ops : List ConnOp) : ConnState := ops.foldl connStep connStart

/-! ### Crypto worker pool (hyper_crypto.cpp) -/

/-- CryptoJob (hyper_crypto.cpp, lines 38-43) together with the contents
of the referenced ring slot at processing time.  `outputCap` is the byte
size of the buffer `submit` allocated for `job->output`. -/
structure CryptoJob where
  inputBytes : List Nat
  inputLen : Nat
  outputCap : Nat
  outputBytes : List Nat
  outputSize : Nat
  done : Bool
deriving Repr, DecidableEq

/-- nativeSubmitCrypto (hyper_crypto.cpp, lines 169-224) after the pool
is up: allocate the output buffer (`m1` = first `malloc`), and if the
requested size is below the slot's payload size as a `jint`, reallocate
at the payload size (`m2` = second `malloc`).  `payload`/`payloadSize`
are the referenced slot's fields. -/
def nativeSubmitCrypto (payload : List Nat) (payloadSize : Nat) (outputLen : Int)
    (m1 m2 : Bool) : Option CryptoJob :=
  if ¬ m1 then none
  else if outputLen < jintOfUInt64 payloadSize then
    if ¬ m2 then none
    else some ⟨payload, payloadSize, payloadSize, [], 0, false⟩
  else some ⟨payload, payloadSize, uint64OfInt outputLen, [], 0, false⟩

/-- The job-processing body of `crypto_worker` (hyper_crypto.cpp, lines
97-140).  The build defines neither `USE_OPENSSL` nor an OpenSSL
dependency, so the live path is the software fallback: XOR every payload
byte with `0xAA`, set `outputSize` to the payload length, and publish
`done = true`. -/
def crypto_worker_process (j : CryptoJob) : CryptoJob :=
  { j with outputBytes := (j.inputBytes.take j.inputLen).map (fun b => b ^^^ 0xAA)
           outputSize := j.inputLen
           done := true }

/-- nativeWaitCrypto (hyper_crypto.cpp, lines 230-257) on a job whose
completion flag is observed: returns `outputSize` as a `jint` when
`done` holds, `-1` after the timeout path.  (The zero-timeout spin on an
unfinished job never terminates in the source and is outside this
model.) -/
def nativeWaitCrypto (j : CryptoJob) : Int :=
  if j.done then jintOfUInt64 j.outputSize else -1

/-! ### Concrete scenario states -/

/-- S2 scenario, capacity 2 with a 1500-byte slab. -/
def c1ring0 : HyperRing := (nativeCreateRing 2 1500 true true).getD emptyRing

/-- A one-byte write request with payload byte `b`. -/
def oneByteWrite (b : Nat) : WriteArgs := ⟨[b], 0, 1, 0, 0, 0⟩

/-- S2 after `write A`. -/
def c1step1 : Option Nat × HyperRing := nativeRingWrite c1ring0 (oneByteWrite 0x41) true

/-- S2 after `write A, write B`. -/
def c1step2 : Option Nat × HyperRing := nativeRingWrite c1step1.2 (oneByteWrite 0x42) true

/-- S2 after `write A, write B, write C`. -/
def c1step3 : Option Nat × HyperRing := nativeRingWrite c1step2.2 (oneByteWrite 0x43) true

/-- C2 scenario: capacity 2, payload_size 100. -/
def c2ring0 : HyperRing := (nativeCreateRing 2 100 true true).getD emptyRing

/-- C2 scenario after one write. -/
def c2step1 : Option Nat × HyperRing := nativeRingWrite c2ring0 (oneByteWrite 1) true

/-- C2 scenario after two writes; the second targets slot index 1. -/
def c2step2 : Option Nat × HyperRing := nativeRingWrite c2step1.2 (oneByteWrite 2) true

/-- C3 counterexample ring: capacity 1, no slab. -/
def c3ring0 : HyperRing := (nativeCreateRing 1 0 true true).getD emptyRing

/-- C3 counterexample: write with `flags = 65536`. -/
def c3step1 : Option Nat × HyperRing :=
  nativeRingWrite c3ring0 ⟨[7], 0, 1, 5, 65536, 3⟩ true

/-- C5 / S6 scenario: three 10 ms windows at 2, 20 and 120 Mbps.
The traffic of each window is accumulated by one update inside the
window (2 Mbps × 10 ms = 2500 bytes, then 25000, then 150000), and the
next update closes the window at the first nanosecond past the 10 ms
boundary. -/
def c5Ops : List BurstOp :=
  [.initOp 0, .updateOp 2500 1, .updateOp 25000 10000001,
   .updateOp 150000 20000002, .updateOp 0 30000003]

/-- The level observed after each of the three window-closing updates. -/
def c5Levels : List Int :=
  [(burstRun (c5Ops.take 3)).level, (burstRun (c5Ops.take 4)).level,
   (burstRun c5Ops).level]

/-- C10 counterexample state: capacity 2, both cursors at
`2^64 - 3` (the next write crosses the `UINT64_MAX - capacity`
threshold). -/
def c10rb : RingBuffer := ⟨2, U64 - 3, 0, U64 - 3, 0, [0, 0]⟩

/-- C10 witness buffer: freshly created with capacity 4. -/
def c10wrb : RingBuffer := (nativeCreateRingBuffer 4 true).getD ⟨0, 0, 0, 0, 0, []⟩


/-- All nonnegative slot fds currently held across the three pools, in
pool and slot order. -/
def connNonnegFds (st : ConnState) : List Int :=
  poolOpenFds st.pool0 ++ poolOpenFds st.pool1 ++ poolOpenFds st.pool2

/-- The no-double-close invariant of the connection pool: the close log
has no duplicates and stays below the fresh-fd counter, and every open
slot fd is below the counter, never previously closed, and held by at
most one slot. -/
def ConnInv (st : ConnState) : Prop :=
  st.closedLog.Nodup ∧
  (∀ f ∈ st.closedLog, f < (st.nextFd : Int)) ∧
  (∀ f ∈ connNonnegFds st, f < (st.nextFd : Int)) ∧
  (∀ f ∈ connNonnegFds st, f ∉ st.closedLog) ∧
  (connNonnegFds st).Nodup

/-! ## Correctness of the bit-smearing power-of-two rounding -/

/-- Base case of the smear characterization: the zeroth shift. -/
theorem testBit_smear_base (m j : Nat) :
    m.testBit j = true ↔ ∃ i, i < 1 ∧ m.testBit (j + i) = true := by
  constructor
  · intro h
    exact ⟨0, by omega, by simpa using h⟩
  · rintro ⟨i, hi, hb⟩
    have hz : i = 0 := by omega
    subst hz
    simpa using hb

/-- One `x |= x >> s` step doubles the range of source bits a result bit
collects. -/
theorem testBit_smearStep (m x s : Nat)
    (hx : ∀ j, (x.testBit j = true ↔ ∃ i, i < s ∧ m.testBit (j + i) = true)) (j : Nat) :
    (smearStep x s).testBit j = true ↔ ∃ i, i < 2 * s ∧ m.testBit (j + i) = true := by
  rw [smearStep, Nat.testBit_or, Bool.or_eq_true, Nat.testBit_shiftRight, hx, hx]
  constructor
  · rintro (⟨i, hi, hb⟩ | ⟨i, hi, hb⟩)
    · exact ⟨i, by omega, hb⟩
    · exact ⟨s + i, by omega, by rwa [show j + (s + i) = s + j + i by omega]⟩
  · rintro ⟨i, hi, hb⟩
    by_cases h : i < s
    · exact Or.inl ⟨i, h, hb⟩
    · exact Or.inr ⟨i - s, by omega, by rwa [show s + j + (i - s) = j + i by omega]⟩

/-- The most significant bit of a positive number is set. -/
theorem testBit_log2_self {m : Nat} (hm : m ≠ 0) : m.testBit m.log2 = true := by
  rw [Nat.testBit_to_div_mod]
  have h1 : 2 ^ m.log2 ≤ m := Nat.log2_self_le hm
  have h2 : m < 2 ^ (m.log2 + 1) := Nat.lt_log2_self
  have hd : m / 2 ^ m.log2 = 1 := by
    apply Nat.div_eq_of_lt_le
    · simpa using h1
    · have he : (1 + 1) * 2 ^ m.log2 = 2 ^ (m.log2 + 1) := by ring
      omega
  rw [hd]
  simp

/-- The smearing chain of `round_up_power2` computes
`2 ^ (log2 (n-1) + 1)` for `2 ≤ n ≤ 2^64`. -/
theorem round_up_power2_eq_pow (n : Nat) (h2 : 2 ≤ n) (hle : n ≤ 2 ^ 64) :
    round_up_power2 n = 2 ^ ((n - 1).log2 + 1) := by
  have hn1 : ¬ n ≤ 1 := by omega
  rw [round_up_power2, if_neg hn1]
  have hm : (n - 1) ≠ 0 := by omega
  have hmlt : n - 1 < 2 ^ 64 := by
    have h64 : (0 : Nat) < 2 ^ 64 := by positivity
    omega
  have c1 := testBit_smearStep (n - 1) (n - 1) 1 (fun j => testBit_smear_base (n - 1) j)
  have c2 := testBit_smearStep (n - 1) _ 2 c1
  have c3 := testBit_smearStep (n - 1) _ 4 c2
  have c4 := testBit_smearStep (n - 1) _ 8 c3
  have c5 := testBit_smearStep (n - 1) _ 16 c4
  have c6 := testBit_smearStep (n - 1) _ 32 c5
  have key : smearStep (smearStep (smearStep (smearStep (smearStep
      (smearStep (n - 1) 1) 2) 4) 8) 16) 32 = 2 ^ ((n - 1).log2 + 1) - 1 := by
    apply Nat.eq_of_testBit_eq
    intro j
    rw [Bool.eq_iff_iff, c6, Nat.testBit_two_pow_sub_one, decide_eq_true_eq]
    constructor
    · rintro ⟨i, hi, hb⟩
      by_contra hc
      have hlt : (n - 1) < 2 ^ (j + i) := by
        calc n - 1 < 2 ^ ((n - 1).log2 + 1) := Nat.lt_log2_self
        _ ≤ 2 ^ (j + i) := Nat.pow_le_pow_right (by norm_num) (by omega)
      rw [Nat.testBit_lt_two_pow hlt] at hb
      exact Bool.false_ne_true hb
    · intro hj
      refine ⟨(n - 1).log2 - j, ?_, ?_⟩
      · have := (Nat.log2_lt hm).mpr hmlt
        omega
      · rw [show j + ((n - 1).log2 - j) = (n - 1).log2 by omega]
        exact testBit_log2_self hm
  simp only [key]
  have h1 : 1 ≤ 2 ^ ((n - 1).log2 + 1) := Nat.one_le_two_pow
  omega

/-- `round_up_power2` returns the least power of two `≥ n`: it is a
power of two, at least `n`, and less than `2 n`. -/
theorem round_up_power2_spec (n : Nat) (h1 : 1 ≤ n) (hle : n ≤ 2 ^ 64) :
    (∃ k, round_up_power2 n = 2 ^ k) ∧
    n ≤ round_up_power2 n ∧ round_up_power2 n < 2 * n := by
  by_cases hn : n = 1
  · subst hn
    refine ⟨⟨0, rfl⟩, by norm_num [round_up_power2], by norm_num [round_up_power2]⟩
  · have h2 : 2 ≤ n := by omega
    rw [round_up_power2_eq_pow n h2 hle]
    have hm : (n - 1) ≠ 0 := by omega
    refine ⟨⟨_, rfl⟩, ?_, ?_⟩
    · have := @Nat.lt_log2_self (n - 1)
      omega
    · have hlow : 2 ^ (n - 1).log2 ≤ n - 1 := Nat.log2_self_le hm
      have hsp : 2 ^ ((n - 1).log2 + 1) = 2 * 2 ^ (n - 1).log2 := by ring
      omega

/-! ## C1: ring full/empty signalling -/

/-- C1: the claim says that on a capacity-2 ring the third write is
rejected with Full and a subsequent read returns payload A.  In the code
the free-space check masks `write_pos - read_pos` with `capacity - 1`
before comparing against `capacity`, so it can never reject: the third
write succeeds (returning the slot-0 handle), the occupancy
`write_pos - read_pos` reaches 3 on a capacity-2 ring, and the first
read returns a slot now holding payload C, not A.  This contradicts the
code's own `// Full` rejection branch (hyper_ring.cpp, lines 149-153),
which is unsatisfiable as written. -/
theorem c1_capacity_full_check_dead :
    c1step3.1 = some 0 ∧
    c1step3.2.capacity = 2 ∧
    occupancy c1step3.2 = 3 ∧
    ((nativeRingRead c1step3.2).1.map (fun p => p.2.payload)) = some [0x43] := by
  decide

/-! ## C2: slab indexing -/

/-- C2: the claim says the slab copy offset is
`slot_index * payload_size`, staying inside the
`capacity * payload_size`-byte slab for every payload size.  The code
hardcodes a 1500-byte stride (hyper_ring.cpp, line 168) and gates the
slab path on `length <= 1500` (line 166) regardless of the configured
payload size: on a ring created with `payload_size = 100` and capacity
2, the second write (slot index 1) copies 1 byte to slab offset 1500,
beyond the 200-byte slab allocated at creation. -/
theorem c2_slab_stride_overflows_pool :
    c2step2.1 = some 1 ∧
    c2step2.2.poolCopies = [(0, 1), (1500, 1)] ∧
    c2step2.2.payloadPoolSize = 200 ∧
    1500 + 1 > c2step2.2.payloadPoolSize := by
  decide

/-! ## C3: write/read round trip and FIFO order -/

/-- C3 counterexample: the claim asserts the returned `PacketMeta`
equals the supplied metadata for every metadata tuple.  `nativeRingWrite`
casts `flags` to `uint16_t` (hyper_ring.cpp, line 162), so supplying
`flags = 65536` stores `0`: the write succeeds, but the read-back flags
value differs from the supplied one. -/
theorem c3_flags_not_roundtripped :
    c3step1.1.isSome = true ∧
    ((nativeRingRead c3step1.2).1.map (fun p => p.2.meta.flags)) = some 0 ∧
    (65536 : Nat) ≠ 0 := by
  decide

/-! ## C4: ring creation -/

/-- C4 counterexample: the claim says creation fails with a null handle
whenever any allocation fails, including the optional slab.  The slab
`posix_memalign` outcome is tested only to install the pool
(hyper_ring.cpp, lines 92-100, no failure branch): with the slab
allocation failing, creation still returns a ring, merely without a
slab. -/
theorem c4_slab_failure_tolerated :
    (nativeCreateRing 4 100 true false).isSome = true ∧
    ((nativeCreateRing 4 100 true false).getD emptyRing).hasPool = false := by
  decide

/-- C4 (amended): `nativeCreateRing` rejects non-positive capacities and
capacities above 65536 with a null handle, returns a null handle when
the slot-array allocation fails, and otherwise returns a ring whose
capacity is the argument rounded up to the least power of two at least
it, at most 65536 — a failed slab allocation does not fail creation. -/
theorem c4_create_characterization (cap ps : Int) (slotsOk poolOk : Bool) :
    ((cap ≤ 0 ∨ cap > 65536) → nativeCreateRing cap ps slotsOk poolOk = none) ∧
    (0 < cap → cap ≤ 65536 → slotsOk = false →
      nativeCreateRing cap ps slotsOk poolOk = none) ∧
    (0 < cap → cap ≤ 65536 → slotsOk = true →
      ∃ r, nativeCreateRing cap ps slotsOk poolOk = some r ∧
        (∃ k, r.capacity = 2 ^ k) ∧
        cap.toNat ≤ r.capacity ∧ r.capacity < 2 * cap.toNat ∧
        r.capacity ≤ 65536) := by
  refine ⟨?_, ?_, ?_⟩
  · intro h
    rw [nativeCreateRing, if_pos (by omega)]
  · intro h1 h2 hs
    subst hs
    rw [nativeCreateRing, if_neg (by omega)]
    simp
  · intro h1 h2 hs
    subst hs
    rw [nativeCreateRing, if_neg (by omega)]
    simp only [not_true_eq_false, if_false, ite_false]
    refine ⟨_, rfl, ?_⟩
    have hn1 : 1 ≤ cap.toNat := by omega
    have hn2 : cap.toNat ≤ 2 ^ 64 := by
      have hc : cap.toNat ≤ 65536 := by omega
      have : (65536 : Nat) ≤ 2 ^ 64 := by norm_num
      omega
    obtain ⟨⟨k, hk⟩, hge, hlt⟩ := round_up_power2_spec cap.toNat hn1 hn2
    refine ⟨⟨k, hk⟩, hge, hlt, ?_⟩
    have hcap : cap.toNat ≤ 65536 := by omega
    have hklt : 2 ^ k < 2 ^ 17 := by
      calc 2 ^ k = round_up_power2 cap.toNat := hk.symm
      _ < 2 * cap.toNat := hlt
      _ ≤ 2 * 65536 := by omega
      _ = 2 ^ 17 := by norm_num
    have hk16 : k ≤ 16 := by
      by_contra hgt
      have h17 : 17 ≤ k := by omega
      have : (2 : Nat) ^ 17 ≤ 2 ^ k := Nat.pow_le_pow_right (by norm_num) h17
      omega
    calc round_up_power2 cap.toNat = 2 ^ k := hk
    _ ≤ 2 ^ 16 := Nat.pow_le_pow_right (by norm_num) hk16
    _ = 65536 := by norm_num

/-- C4 witness: creation with capacity 5 yields the rounded capacity 8,
the least power of two at least 5. -/
theorem c4_create_characterization_witness :
    0 < (5 : Int) ∧ (5 : Int) ≤ 65536 ∧
    ∃ r, nativeCreateRing 5 0 true true = some r ∧
      (∃ k, r.capacity = 2 ^ k) ∧
      (5 : Int).toNat ≤ r.capacity ∧ r.capacity < 2 * (5 : Int).toNat ∧
      r.capacity ≤ 65536 :=
  ⟨by decide, by decide,
   (c4_create_characterization 5 0 true true).2.2 (by decide) (by decide) rfl⟩

/-! ## C5: burst classifier scenario -/

/-- Tracker state after `initOp 0`. -/
theorem burst_c5_step1 : burstStep burstZero (BurstOp.initOp 0) =
    ⟨1 / 10, 0, 0, 0, 0, 0⟩ := rfl

/-- Tracker state after accumulating window 1 (2500 bytes at t = 1). -/
theorem burst_c5_step2 :
    burstStep ⟨1 / 10, 0, 0, 0, 0, 0⟩ (BurstOp.updateOp 2500 1) =
    ⟨1 / 10, 0, 1, 2500, 0, 0⟩ := by
  have e1 : uint64OfInt 2500 = 2500 := by decide
  have e2 : uint64OfInt 1 = 1 := by decide
  simp only [burstStep, e1, e2, update_burst_intensity, u64sub, U64, classifyBurst,
    BurstTracker.mk.injEq]
  norm_num

/-- Closing window 1 (10000001 ns at 2500 bytes, i.e. 2 Mbps): the
smoothed rate lands at `250000000000 / 10000001 ≈ 25000` bytes/s, level
`BURST_NONE`. -/
theorem burst_c5_step3 :
    burstStep ⟨1 / 10, 0, 1, 2500, 0, 0⟩ (BurstOp.updateOp 25000 10000001) =
    ⟨1 / 10, 250000000000 / 10000001, 1, 25000, 10000001, 0⟩ := by
  have e1 : uint64OfInt 25000 = 25000 := by decide
  have e2 : uint64OfInt 10000001 = 10000001 := by decide
  simp only [burstStep, e1, e2, update_burst_intensity, u64sub, U64, classifyBurst,
    BurstTracker.mk.injEq]
  norm_num

/-- Closing window 2 (25000 bytes, i.e. 20 Mbps): smoothed rate
`2725000000000 / 10000001 ≈ 272500` bytes/s, still `BURST_NONE`. -/
theorem burst_c5_step4 :
    burstStep ⟨1 / 10, 250000000000 / 10000001, 1, 25000, 10000001, 0⟩
      (BurstOp.updateOp 150000 20000002) =
    ⟨1 / 10, 2725000000000 / 10000001, 1, 150000, 20000002, 0⟩ := by
  have e1 : uint64OfInt 150000 = 150000 := by decide
  have e2 : uint64OfInt 20000002 = 20000002 := by decide
  simp only [burstStep, e1, e2, update_burst_intensity, u64sub, U64, classifyBurst,
    BurstTracker.mk.injEq]
  norm_num

/-- Closing window 3 (150000 bytes, i.e. 120 Mbps): smoothed rate
`17452500000000 / 10000001 ≈ 1745248` bytes/s, level `BURST_LOW`. -/
theorem burst_c5_step5 :
    burstStep ⟨1 / 10, 2725000000000 / 10000001, 1, 150000, 20000002, 0⟩
      (BurstOp.updateOp 0 30000003) =
    ⟨1 / 10, 17452500000000 / 10000001, 1, 0, 30000003, 1⟩ := by
  have e1 : uint64OfInt 0 = 0 := by decide
  have e2 : uint64OfInt 30000003 = 30000003 := by decide
  simp only [burstStep, e1, e2, update_burst_intensity, u64sub, U64, classifyBurst,
    BurstTracker.mk.injEq]
  norm_num

/-- Evaluation of the S6 scenario: the observed levels are
None, None, Low. -/
theorem burst_c5_eval : c5Levels = [0, 0, 1] := by
  have h3 : burstRun (c5Ops.take 3) = ⟨1 / 10, 250000000000 / 10000001, 1, 25000, 10000001, 0⟩ := by
    show List.foldl burstStep burstZero _ = _
    simp only [c5Ops, List.take, List.foldl, burst_c5_step1, burst_c5_step2, burst_c5_step3]
  have h4 : burstRun (c5Ops.take 4) = ⟨1 / 10, 2725000000000 / 10000001, 1, 150000, 20000002, 0⟩ := by
    show List.foldl burstStep burstZero _ = _
    simp only [c5Ops, List.take, List.foldl, burst_c5_step1, burst_c5_step2, burst_c5_step3,
      burst_c5_step4]
  have h5 : burstRun c5Ops = ⟨1 / 10, 17452500000000 / 10000001, 1, 0, 30000003, 1⟩ := by
    show List.foldl burstStep burstZero _ = _
    simp only [c5Ops, List.foldl, burst_c5_step1, burst_c5_step2, burst_c5_step3,
      burst_c5_step4, burst_c5_step5]
  simp only [c5Levels, h3, h4, h5]

/-- C5 counterexample: the claim predicts observed levels
Low, Medium, Extreme (1, 2, 4) for the S6 feed; the code yields
None, None, Low, because it computes the window rate in bytes per second
(hyper_burst.hpp, lines 35-36) and smooths before classifying, so
2 Mbps = 250000 bytes/s smoothed to about 25000 stays far below the
first threshold `1000000.0`. -/
theorem c5_burst_scenario_counterexample : c5Levels ≠ [1, 2, 4] := by
  rw [burst_c5_eval]
  decide

/-- C5 (amended): feeding three consecutive 10 ms windows of 2, 20 and
120 Mbps, each closed by the following update, yields observed levels
None, None, Low: the rate entering the EWMA is in bytes per second and
each window close computes `smoothed = 0.1 r + 0.9 smoothed` before
classifying against 1e6 / 1e7 / 5e7 / 1e8 (exact rational model of the
source's `double` arithmetic; every comparison is decided by a margin
above 40x). -/
theorem c5_burst_scenario_levels : c5Levels = [0, 0, 1] := burst_c5_eval

/-! ## C6: burst level enum invariant -/

/-- C6 counterexample: the claim says the stored level is one of the
five enum values even under `submit_hint` with an arbitrary integer.
`nativeSubmitBurstHint` stores the raw `jint` into the enum field with a
bare `static_cast` (hyper_burst.cpp, line 33): a hint of 5 makes
`current_level` report 5, outside `{0..4}`. -/
theorem c6_hint_escapes_enum :
    (burstRun [BurstOp.initOp 0, BurstOp.hintOp 5]).level = 5 ∧
    ¬ levelInEnum 5 := by
  constructor
  · rfl
  · intro h
    exact absurd h.2 (by norm_num)

/-- The classifier chain only produces enum values 0..4. -/
theorem classifyBurst_mem_enum (q : ℚ) : levelInEnum (classifyBurst q) := by
  unfold classifyBurst levelInEnum
  split
  · omega
  · split
    · omega
    · split
      · omega
      · split
        · omega
        · omega

/-- Every burst operation whose hint argument is a valid enum value
preserves enum membership of the stored level. -/
theorem burstStep_preserves_enum (t : BurstTracker) (op : BurstOp)
    (ht : levelInEnum t.level)
    (hop : ∀ l, op = BurstOp.hintOp l → 0 ≤ l ∧ l ≤ 4) :
    levelInEnum (burstStep t op).level := by
  cases op with
  | initOp now => exact ⟨by norm_num [burstStep], by norm_num [burstStep]⟩
  | updateOp bytes ts =>
    simp only [burstStep, update_burst_intensity]
    split
    · exact classifyBurst_mem_enum _
    · exact ht
  | hintOp l => exact hop l rfl

/-- C6 (amended): starting from the zero-initialized global tracker,
after any sequence of init, update and hint operations in which every
hint argument lies in 0..4, the stored burst level is one of the five
enum values — init and every window classification always store a value
in 0..4; only an out-of-range hint can escape. -/
theorem c6_level_in_enum (ops : List BurstOp)
    (hops : ∀ l, BurstOp.hintOp l ∈ ops → 0 ≤ l ∧ l ≤ 4) :
    levelInEnum (burstRun ops).level := by
  suffices h : ∀ (os : List BurstOp) (t : BurstTracker), levelInEnum t.level →
      (∀ l, BurstOp.hintOp l ∈ os → 0 ≤ l ∧ l ≤ 4) →
      levelInEnum (List.foldl burstStep t os).level by
    exact h ops burstZero ⟨by decide, by decide⟩ hops
  intro os
  induction os with
  | nil => intro t ht _; exact ht
  | cons o rest ih =>
    intro t ht hval
    simp only [List.foldl_cons]
    apply ih
    · exact burstStep_preserves_enum t o ht
        (fun l hl => hval l (by rw [hl]; exact List.mem_cons_self _ _))
    · exact fun l hl => hval l (List.mem_cons_of_mem _ hl)

/-- C6 witness: a run consisting of a single init leaves the level at
`BURST_NONE`, inside the enum. -/
theorem c6_level_in_enum_witness :
    (∀ l, BurstOp.hintOp l ∈ [BurstOp.initOp 0] → 0 ≤ l ∧ l ≤ 4) ∧
    levelInEnum (burstRun [BurstOp.initOp 0]).level := by
  refine ⟨?_, c6_level_in_enum [BurstOp.initOp 0] ?_⟩ <;>
    · intro l hl
      simp at hl


/-! ## C3: FIFO machinery -/

/-- Adding a nonzero offset below the modulus moves a residue. -/
theorem add_mod_ne (p d c : Nat) (hd1 : 0 < d) (hd2 : d < c) :
    (p + d) % c ≠ p % c := by
  intro h
  have h2 : p % c = (p + d) % c := h.symm
  have hdvd : c ∣ d := by
    have hmod := (Nat.modEq_iff_dvd' (by omega : p ≤ p + d)).mp h2
    simpa using hmod
  have := Nat.le_of_dvd hd1 hdvd
  omega

/-- A `nativeRingWrite` with valid arguments and a succeeding `malloc`
always succeeds (the full check is unsatisfiable), storing the cast
metadata and copied payload at slot `write_pos % capacity` and advancing
`write_pos` by one. -/
theorem ringWrite_ok (r : HyperRing) (a : WriteArgs) (k : Nat)
    (hcap : r.capacity = 2 ^ k) (hv : validArgs a) (hw : r.writePos + 1 < U64) :
    nativeRingWrite r a true =
      (some (r.writePos % r.capacity),
       { r with
         slots := r.slots.set (r.writePos % r.capacity) (slotOfArgs a)
         writePos := r.writePos + 1
         poolCopies := if r.hasPool && decide (a.length ≤ 1500)
           then r.poolCopies ++ [((r.writePos % r.capacity) * 1500, a.length.toNat)]
           else r.poolCopies }) := by
  obtain ⟨ho, hl, hb⟩ := hv
  have hcpos : 0 < r.capacity := by rw [hcap]; positivity
  have hmask : ∀ x : Nat, x &&& (r.capacity - 1) = x % r.capacity := by
    intro x
    rw [hcap]
    exact Nat.and_pow_two_sub_one_eq_mod x k
  have hmod1 : (r.writePos + 1) % U64 = r.writePos + 1 := Nat.mod_eq_of_lt hw
  simp only [nativeRingWrite, hmask, slotOfArgs, hmod1]
  rw [if_neg (by omega), if_neg (by omega),
    if_neg (by exact Nat.not_le.mpr (Nat.mod_lt _ hcpos))]
  by_cases hp : r.hasPool && decide (a.length ≤ 1500)
  · rw [if_pos hp, if_pos hp]
  · rw [if_neg hp, if_neg hp, if_pos trivial]

/-- Reading back the position a `List.set` wrote. -/
theorem getD_set_self {α : Type} (l : List α) (i : Nat) (x d : α) (h : i < l.length) :
    (l.set i x).getD i d = x := by
  rw [List.getD_eq_getElem?_getD, List.getElem?_set_self h]
  rfl

/-- Positions other than the one `List.set` wrote are unchanged. -/
theorem getD_set_ne {α : Type} (l : List α) (i j : Nat) (x d : α) (h : i ≠ j) :
    (l.set i x).getD j d = l.getD j d := by
  rw [List.getD_eq_getElem?_getD, List.getElem?_set_ne h, ← List.getD_eq_getElem?_getD]

/-- State after a run of valid writes: the cursors advance, each write
returns the handle of slot `(write_pos + j) % capacity`, untouched slots
keep their contents, and — when the run does not exceed the capacity —
slot `(write_pos + j) % capacity` holds exactly the j-th written
packet. -/
theorem writeMany_ok (k : Nat) (ws : List WriteArgs) :
    ∀ (r : HyperRing), r.capacity = 2 ^ k → r.slots.length = r.capacity →
    (∀ a ∈ ws, validArgs a) → r.writePos + ws.length < U64 →
    (writeMany r ws).2.capacity = r.capacity ∧
    (writeMany r ws).2.readPos = r.readPos ∧
    (writeMany r ws).2.writePos = r.writePos + ws.length ∧
    (writeMany r ws).2.slots.length = r.slots.length ∧
    (writeMany r ws).1 =
      (List.range ws.length).map (fun j => some ((r.writePos + j) % r.capacity)) ∧
    (∀ i, (∀ j, j < ws.length → (r.writePos + j) % r.capacity ≠ i) →
        (writeMany r ws).2.slots.getD i zeroSlot = r.slots.getD i zeroSlot) ∧
    (ws.length ≤ r.capacity →
      ∀ j, j < ws.length →
        (writeMany r ws).2.slots.getD ((r.writePos + j) % r.capacity) zeroSlot =
          slotOfArgs (ws.getD j dummyArgs)) := by
  induction ws with
  | nil =>
    intro r hcap hlen hv hfit
    simp [writeMany]
  | cons a rest ih =>
    intro r hcap hlen hv hfit
    have hva : validArgs a := hv a (List.mem_cons_self _ _)
    have hrest : ∀ b ∈ rest, validArgs b := fun b hb => hv b (List.mem_cons_of_mem _ hb)
    have hlc : (a :: rest).length = rest.length + 1 := by simp
    have hw1 : r.writePos + 1 < U64 := by
      rw [hlc] at hfit; omega
    have hstep := ringWrite_ok r a k hcap hva hw1
    have hcpos : 0 < r.capacity := by rw [hcap]; positivity
    simp only [writeMany, hstep]
    set idx0 := r.writePos % r.capacity with hidx0
    set r1 : HyperRing :=
      { r with
        slots := r.slots.set idx0 (slotOfArgs a)
        writePos := r.writePos + 1
        poolCopies := if r.hasPool && decide (a.length ≤ 1500)
          then r.poolCopies ++ [(idx0 * 1500, a.length.toNat)]
          else r.poolCopies } with hr1
    have hr1cap : r1.capacity = 2 ^ k := hcap
    have hr1len : r1.slots.length = r1.capacity := by
      simp [hr1, hlen]
    have hr1fit : r1.writePos + rest.length < U64 := by
      show r.writePos + 1 + rest.length < U64
      rw [hlc] at hfit; omega
    obtain ⟨ihcap, ihread, ihwrite, ihlen, ihhandles, ihframe, ihcontent⟩ :=
      ih r1 hr1cap hr1len hrest hr1fit
    have hr1cap2 : r1.capacity = r.capacity := rfl
    refine ⟨ihcap, ihread, ?_, ?_, ?_, ?_, ?_⟩
    · rw [ihwrite]
      show r.writePos + 1 + rest.length = r.writePos + (a :: rest).length
      simp; omega
    · rw [ihlen]
      simp [hr1, hlen]
    · -- handles
      rw [ihhandles]
      rw [hlc, List.range_succ_eq_map]
      simp only [List.map_cons, List.map_map]
      have hhead : some idx0 = some ((r.writePos + 0) % r.capacity) := by
        simp [hidx0]
      have htail : ∀ j : Nat,
          ((fun j => some ((r.writePos + j) % r.capacity)) ∘ Nat.succ) j
            = some ((r.writePos + 1 + j) % r.capacity) := by
        intro j
        simp only [Function.comp_apply]
        congr 2
        omega
      rw [hhead]
      congr 1
      apply List.map_congr_left
      exact fun j hj => (htail j).symm
    · -- frame
      intro i hi
      have h0 : (r.writePos + 0) % r.capacity ≠ i := hi 0 (by rw [hlc]; omega)
      rw [ihframe i ?_]
      · show (r.slots.set idx0 (slotOfArgs a)).getD i zeroSlot = r.slots.getD i zeroSlot
        have hne : idx0 ≠ i := by
          simpa [hidx0] using h0
        exact getD_set_ne _ _ _ _ _ hne
      · intro j hj
        show (r.writePos + 1 + j) % r.capacity ≠ i
        have := hi (j + 1) (by rw [hlc]; omega)
        rwa [show r.writePos + (j + 1) = r.writePos + 1 + j by omega] at this
    · -- content
      intro hnc j hj
      rw [hlc] at hj hnc
      cases j with
      | zero =>
        have hz : (r.writePos + 0) % r.capacity = idx0 := by
          rw [Nat.add_zero, hidx0]
        rw [hz]
        rw [ihframe idx0 ?_]
        · show (r.slots.set idx0 (slotOfArgs a)).getD idx0 zeroSlot =
            slotOfArgs ((a :: rest).getD 0 dummyArgs)
          have hlt : idx0 < r.slots.length := by
            rw [hlen, hidx0]; exact Nat.mod_lt _ hcpos
          rw [getD_set_self _ _ _ _ hlt]
          rfl
        · intro j hjr
          show (r1.writePos + j) % r1.capacity ≠ idx0
          have hshape : r1.writePos + j = r.writePos + (1 + j) := by
            show r.writePos + 1 + j = _; omega
          rw [hr1cap2, hshape, hidx0]
          exact add_mod_ne r.writePos (1 + j) r.capacity (by omega) (by omega)
      | succ m =>
        have hm := ihcontent (by rw [hr1cap2]; omega) m (by omega)
        rw [show r.writePos + (m + 1) = r1.writePos + m from by show _ = r.writePos + 1 + m; omega]
        rw [hr1cap2] at hm
        rw [hm]
        simp

/-- State after a run of reads on a ring holding enough items: the j-th
read returns the slot at `(read_pos + j) % capacity` and the read cursor
advances by the run length. -/
theorem readMany_ok (k : Nat) (n : Nat) :
    ∀ (r : HyperRing), r.capacity = 2 ^ k → r.readPos + n ≤ r.writePos →
    r.writePos < U64 →
    (readMany r n).1 = (List.range n).map (fun j =>
      some ((r.readPos + j) % r.capacity,
            r.slots.getD ((r.readPos + j) % r.capacity) zeroSlot)) ∧
    (readMany r n).2.readPos = r.readPos + n ∧
    (readMany r n).2.writePos = r.writePos ∧
    (readMany r n).2.slots = r.slots ∧
    (readMany r n).2.capacity = r.capacity := by
  induction n with
  | zero =>
    intro r hcap h1 h2
    simp [readMany]
  | succ m ih =>
    intro r hcap h1 h2
    have hmask : ∀ x : Nat, x &&& (r.capacity - 1) = x % r.capacity := by
      intro x
      rw [hcap]
      exact Nat.and_pow_two_sub_one_eq_mod x k
    have hmod : (r.readPos + 1) % U64 = r.readPos + 1 := Nat.mod_eq_of_lt (by omega)
    have hstep : nativeRingRead r =
        (some (r.readPos % r.capacity, r.slots.getD (r.readPos % r.capacity) zeroSlot),
         { r with readPos := r.readPos + 1 }) := by
      simp only [nativeRingRead, hmask, hmod]
      rw [if_neg (by omega)]
    simp only [readMany, hstep]
    obtain ⟨ihh, ihr, ihw, ihs, ihc⟩ := ih { r with readPos := r.readPos + 1 }
      hcap (by show r.readPos + 1 + m ≤ r.writePos; omega) h2
    refine ⟨?_, ?_, ihw, ihs, ihc⟩
    · rw [ihh, List.range_succ_eq_map]
      simp only [List.map_cons, List.map_map]
      have hhead : (some (r.readPos % r.capacity, r.slots.getD (r.readPos % r.capacity) zeroSlot))
          = some ((r.readPos + 0) % r.capacity,
              r.slots.getD ((r.readPos + 0) % r.capacity) zeroSlot) := by
        simp
      rw [hhead]
      congr 1
      apply List.map_congr_left
      intro j hj
      show some ((r.readPos + 1 + j) % r.capacity, _) = _
      simp only [Function.comp_apply]
      have harith : r.readPos + 1 + j = r.readPos + Nat.succ j := by omega
      rw [harith]
    · rw [ihr]
      show r.readPos + 1 + m = r.readPos + (m + 1)
      omega

/-- C3 (amended): on a previously empty ring, every run of at most
`capacity` writes with valid arguments and succeeding allocations
succeeds entirely, and the following reads return the written slots in
write order; each read slot carries the written payload byte-for-byte
and the supplied metadata truncated to the `PacketMeta` field widths
(`timestamp_ns` mod 2^64, `length` as `uint32`, `flags` and `queue` mod
2^16) — by the counterexample, exact equality of `flags` fails at
65536. -/
theorem c3_fifo_roundtrip (k : Nat) (r : HyperRing) (ws : List WriteArgs)
    (hcap : r.capacity = 2 ^ k) (hlen : r.slots.length = r.capacity)
    (hempty : r.readPos = r.writePos) (hN : ws.length ≤ r.capacity)
    (hfit : r.writePos + ws.length < U64) (hv : ∀ a ∈ ws, validArgs a) :
    (∀ h ∈ (writeMany r ws).1, h.isSome = true) ∧
    (∀ j, j < ws.length →
      (readMany (writeMany r ws).2 ws.length).1.getD j none =
        some ((r.writePos + j) % r.capacity, slotOfArgs (ws.getD j dummyArgs))) := by
  obtain ⟨wcap, wread, wwrite, wlen, whandles, wframe, wcontent⟩ :=
    writeMany_ok k ws r hcap hlen hv hfit
  obtain ⟨rhandles, rread, rwrite, rslots, rcap⟩ :=
    readMany_ok k ws.length (writeMany r ws).2 (by rw [wcap, hcap])
      (by rw [wread, wwrite, hempty]) (by rw [wwrite]; omega)
  constructor
  · intro h hmem
    rw [whandles] at hmem
    simp only [List.mem_map, List.mem_range] at hmem
    obtain ⟨j, hj, rfl⟩ := hmem
    rfl
  · intro j hj
    rw [rhandles]
    have hgd : ∀ (f : Nat → Option (Nat × RingSlot)),
        ((List.range ws.length).map f).getD j none = f j := by
      intro f
      rw [List.getD_eq_getElem?_getD, List.getElem?_map, List.getElem?_range hj]
      rfl
    rw [hgd]
    rw [wread, hempty, wcap]
    rw [wcontent hN j hj]

/-- C3 witness: two writes then two reads on a fresh capacity-2 ring;
the first read returns slot 0 holding the first written packet. -/
theorem c3_fifo_roundtrip_witness :
    (c3wRing.capacity = 2 ^ 1 ∧ c3wRing.slots.length = c3wRing.capacity ∧
     c3wRing.readPos = c3wRing.writePos ∧ c3wList.length ≤ c3wRing.capacity ∧
     c3wRing.writePos + c3wList.length < U64 ∧ ∀ a ∈ c3wList, validArgs a) ∧
    (readMany (writeMany c3wRing c3wList).2 c3wList.length).1.getD 0 none =
      some ((c3wRing.writePos + 0) % c3wRing.capacity, slotOfArgs (c3wList.getD 0 dummyArgs)) := by
  refine ⟨⟨by decide, by decide, by decide, by decide, by decide, by decide⟩, ?_⟩
  exact (c3_fifo_roundtrip 1 c3wRing c3wList (by decide) (by decide) (by decide)
    (by decide) (by decide) (by decide)).2 0 (by decide)

/-! ## C9: crypto job contract -/

/-- The `uint64 -> jint` cast is the identity below `2^31`. -/
theorem jintOfUInt64_small (n : Nat) (h : n < 2 ^ 31) : jintOfUInt64 n = n := by
  unfold jintOfUInt64
  have h32 : n % U32 = n := Nat.mod_eq_of_lt (by unfold U32; omega)
  rw [h32, if_pos h]

/-- C9: for every job `submit` accepts, the allocated output buffer is
at least the slot's payload length; a worker that processes the job
writes the whole result inside that buffer, sets `output_length` to the
payload length (hence at least it), publishes `done = true`, and a
subsequent `await` on the finished job returns that non-negative
`output_length`.  Hypotheses bound the payload length and requested
output length to the `jint` range of the JNI surface. -/
theorem c9_crypto_job_contract (payload : List Nat) (payloadSize : Nat)
    (outputLen : Int) (m1 m2 : Bool) (job : CryptoJob)
    (hlen : payload.length = payloadSize) (hsz : payloadSize < 2 ^ 31)
    (hout : outputLen < 2 ^ 31)
    (hsub : nativeSubmitCrypto payload payloadSize outputLen m1 m2 = some job) :
    payloadSize ≤ job.outputCap ∧
    (crypto_worker_process job).done = true ∧
    (crypto_worker_process job).outputSize = payloadSize ∧
    (crypto_worker_process job).outputBytes.length = payloadSize ∧
    (crypto_worker_process job).outputCap = job.outputCap ∧
    nativeWaitCrypto (crypto_worker_process job) = (payloadSize : Int) ∧
    0 ≤ nativeWaitCrypto (crypto_worker_process job) := by
  have hjint : jintOfUInt64 payloadSize = payloadSize := jintOfUInt64_small _ hsz
  unfold nativeSubmitCrypto at hsub
  rw [hjint] at hsub
  cases m1 with
  | false => simp at hsub
  | true =>
    simp only [Bool.not_true, if_false, ite_false, not_true_eq_false] at hsub
    have hwait : ∀ j : CryptoJob, j.done = true →
        nativeWaitCrypto j = jintOfUInt64 j.outputSize := by
      intro j hd
      unfold nativeWaitCrypto
      rw [if_pos hd]
    by_cases hlt : outputLen < (payloadSize : Int)
    · rw [if_pos hlt] at hsub
      cases m2 with
      | false => simp at hsub
      | true =>
        simp only [Bool.not_true, not_true_eq_false, if_false, ite_false,
          Option.some.injEq] at hsub
        subst hsub
        refine ⟨le_refl _, rfl, rfl, ?_, rfl, ?_, ?_⟩
        · simp [crypto_worker_process, hlen]
        · show jintOfUInt64 payloadSize = _
          exact hjint
        · show (0 : Int) ≤ jintOfUInt64 payloadSize
          rw [hjint]
          exact Int.natCast_nonneg _
    · rw [if_neg hlt] at hsub
      simp only [Option.some.injEq] at hsub
      subst hsub
      have hcap : payloadSize ≤ uint64OfInt outputLen := by
        unfold uint64OfInt U64
        have h0 : 0 ≤ outputLen := by omega
        have hmod : outputLen % ((2 ^ 64 : Nat) : Int) = outputLen := by
          apply Int.emod_eq_of_lt h0
          push_cast
          have hp : (2 ^ 31 : Int) < 2 ^ 64 := by norm_num
          omega
        rw [hmod]
        omega
      refine ⟨hcap, rfl, rfl, ?_, rfl, ?_, ?_⟩
      · simp [crypto_worker_process, hlen]
      · show jintOfUInt64 payloadSize = _
        exact hjint
      · show (0 : Int) ≤ jintOfUInt64 payloadSize
        rw [hjint]
        exact Int.natCast_nonneg _

/-- C9 witness: a two-byte payload with a five-byte output request. -/
theorem c9_crypto_job_contract_witness :
    (([1, 2] : List Nat).length = 2 ∧ (2 : Nat) < 2 ^ 31 ∧ (5 : Int) < 2 ^ 31 ∧
     nativeSubmitCrypto [1, 2] 2 5 true true = some ⟨[1, 2], 2, 5, [], 0, false⟩) ∧
    2 ≤ (⟨[1, 2], 2, 5, [], 0, false⟩ : CryptoJob).outputCap ∧
    (crypto_worker_process ⟨[1, 2], 2, 5, [], 0, false⟩).done = true ∧
    (crypto_worker_process ⟨[1, 2], 2, 5, [], 0, false⟩).outputSize = 2 ∧
    (crypto_worker_process ⟨[1, 2], 2, 5, [], 0, false⟩).outputBytes.length = 2 ∧
    (crypto_worker_process ⟨[1, 2], 2, 5, [], 0, false⟩).outputCap =
      (⟨[1, 2], 2, 5, [], 0, false⟩ : CryptoJob).outputCap ∧
    nativeWaitCrypto (crypto_worker_process ⟨[1, 2], 2, 5, [], 0, false⟩) = (2 : Int) ∧
    0 ≤ nativeWaitCrypto (crypto_worker_process ⟨[1, 2], 2, 5, [], 0, false⟩) :=
  ⟨⟨by decide, by decide, by decide, by decide⟩,
   c9_crypto_job_contract [1, 2] 2 5 true true ⟨[1, 2], 2, 5, [], 0, false⟩
     (by decide) (by decide) (by decide) (by decide)⟩

/-! ## C7: connection-pool init -/

/-- For every clamped total `t` in 4..16, the 40/35/remainder split
gives each class at least one slot and sums exactly to `t` (so the
one-slot floors never fire). -/
theorem poolSizes_facts : ∀ t, t < 17 → 4 ≤ t →
    1 ≤ h2SizeOf t ∧ 1 ≤ visionSizeOf t ∧ (1 : Int) ≤ reserveSizeOf t ∧
    (h2SizeOf t : Int) + visionSizeOf t + reserveSizeOf t = t := by decide

/-- The clamp equals `min (max n 4) 16` and lands in 4..16. -/
theorem clampPoolSize_facts (n : Int) : (clampPoolSize n : Int) = min (max n 4) 16 ∧
    4 ≤ clampPoolSize n ∧ clampPoolSize n < 17 := by
  unfold clampPoolSize
  split
  · refine ⟨by omega, by omega, by omega⟩
  · split
    · refine ⟨by omega, by omega, by omega⟩
    · refine ⟨by omega, by omega, by omega⟩

/-- C7: `init(total_slots)` clamps the total to `t = min (max n 4) 16`,
sizes the classes as `round(0.40 t)`, `round(0.35 t)` (computed as
`(40 t + 50) / 100` and `(35 t + 50) / 100`) and the remainder, gives
every class at least one slot with the three sizes summing exactly to
`t`, resets every slot to `fd = -1`, `in_use = false`,
`connected = false`, and closes every previously open fd. -/
theorem c7_init_clamps_and_partitions (st : ConnState) (n : Int) :
    ((clampPoolSize n : Int) = min (max n 4) 16) ∧
    (nativeInitConnectionPool st n).pool0.slots.length = h2SizeOf (clampPoolSize n) ∧
    (nativeInitConnectionPool st n).pool1.slots.length = visionSizeOf (clampPoolSize n) ∧
    ((nativeInitConnectionPool st n).pool2.slots.length : Int) = reserveSizeOf (clampPoolSize n) ∧
    (nativeInitConnectionPool st n).pool0.slots.length
      + (nativeInitConnectionPool st n).pool1.slots.length
      + (nativeInitConnectionPool st n).pool2.slots.length = clampPoolSize n ∧
    1 ≤ (nativeInitConnectionPool st n).pool0.slots.length ∧
    1 ≤ (nativeInitConnectionPool st n).pool1.slots.length ∧
    1 ≤ (nativeInitConnectionPool st n).pool2.slots.length ∧
    (∀ s : ConnectionSlot,
      (s ∈ (nativeInitConnectionPool st n).pool0.slots ∨
       s ∈ (nativeInitConnectionPool st n).pool1.slots ∨
       s ∈ (nativeInitConnectionPool st n).pool2.slots) →
      s.fd = -1 ∧ s.in_use = false ∧ s.connected = false) ∧
    (nativeInitConnectionPool st n).closedLog =
      st.closedLog ++ poolOpenFds st.pool0 ++ poolOpenFds st.pool1
        ++ poolOpenFds st.pool2 := by
  obtain ⟨hc1, hc4, hc17⟩ := clampPoolSize_facts n
  obtain ⟨hh, hv, hr, hsum⟩ := poolSizes_facts (clampPoolSize n) hc17 hc4
  have e0 : (nativeInitConnectionPool st n).pool0.slots =
      List.replicate (h2SizeOf (clampPoolSize n)) (freshSlot 0) := by
    simp only [nativeInitConnectionPool]
    congr 1
    unfold floorOne
    split
    · omega
    · omega
  have e1 : (nativeInitConnectionPool st n).pool1.slots =
      List.replicate (visionSizeOf (clampPoolSize n)) (freshSlot 1) := by
    simp only [nativeInitConnectionPool]
    congr 1
    unfold floorOne
    split
    · omega
    · omega
  have e2 : (nativeInitConnectionPool st n).pool2.slots =
      List.replicate (reserveSizeOf (clampPoolSize n)).toNat (freshSlot 2) := by
    simp only [nativeInitConnectionPool]
    congr 1
    unfold floorOne
    split
    · omega
    · rfl
  refine ⟨hc1, ?_, ?_, ?_, ?_, ?_, ?_, ?_, ?_, ?_⟩
  · rw [e0, List.length_replicate]
  · rw [e1, List.length_replicate]
  · rw [e2, List.length_replicate]
    omega
  · rw [e0, e1, e2, List.length_replicate, List.length_replicate, List.length_replicate]
    omega
  · rw [e0, List.length_replicate]; omega
  · rw [e1, List.length_replicate]; omega
  · rw [e2, List.length_replicate]; omega
  · intro s hs
    have hfresh : ∃ i, s = freshSlot i := by
      rcases hs with hs | hs | hs
      · rw [e0] at hs; exact ⟨0, List.eq_of_mem_replicate hs⟩
      · rw [e1] at hs; exact ⟨1, List.eq_of_mem_replicate hs⟩
      · rw [e2] at hs; exact ⟨2, List.eq_of_mem_replicate hs⟩
    obtain ⟨i, rfl⟩ := hfresh
    exact ⟨rfl, rfl, rfl⟩
  · rfl


/-! ## C10: byte-ring write characterization -/

/-- A `listCopy` preserves the store's length. -/
theorem listCopy_length (bs : List Nat) : ∀ (dst : List Nat) (i : Nat),
    (listCopy dst i bs).length = dst.length := by
  induction bs with
  | nil => intro dst i; rfl
  | cons b rest ih =>
    intro dst i
    show (listCopy (dst.set i b) (i + 1) rest).length = dst.length
    rw [ih, List.length_set]

/-- Positions below the copy region are untouched. -/
theorem listCopy_getD_lo (bs : List Nat) : ∀ (dst : List Nat) (i j : Nat), j < i →
    (listCopy dst i bs).getD j 0 = dst.getD j 0 := by
  induction bs with
  | nil => intro dst i j h; rfl
  | cons b rest ih =>
    intro dst i j h
    show (listCopy (dst.set i b) (i + 1) rest).getD j 0 = dst.getD j 0
    rw [ih _ _ _ (by omega), getD_set_ne _ _ _ _ _ (by omega)]

/-- Positions at or above the end of the copy region are untouched. -/
theorem listCopy_getD_hi (bs : List Nat) : ∀ (dst : List Nat) (i j : Nat),
    i + bs.length ≤ j →
    (listCopy dst i bs).getD j 0 = dst.getD j 0 := by
  induction bs with
  | nil => intro dst i j h; rfl
  | cons b rest ih =>
    intro dst i j h
    simp only [List.length_cons] at h
    show (listCopy (dst.set i b) (i + 1) rest).getD j 0 = dst.getD j 0
    rw [ih _ _ _ (by omega), getD_set_ne _ _ _ _ _ (by omega)]

/-- Positions inside the copy region hold the copied bytes. -/
theorem listCopy_getD_in (bs : List Nat) : ∀ (dst : List Nat) (i j : Nat),
    j < bs.length → i + bs.length ≤ dst.length →
    (listCopy dst i bs).getD (i + j) 0 = bs.getD j 0 := by
  induction bs with
  | nil => intro dst i j h _; simp at h
  | cons b rest ih =>
    intro dst i j hj hb
    simp only [List.length_cons] at hj hb
    cases j with
    | zero =>
      show (listCopy (dst.set i b) (i + 1) rest).getD i 0 = b
      rw [listCopy_getD_lo rest _ _ _ (by omega),
        getD_set_self _ _ _ _ (by omega)]
    | succ m =>
      show (listCopy (dst.set i b) (i + 1) rest).getD (i + (m + 1)) 0 = rest.getD m 0
      rw [show i + (m + 1) = (i + 1) + m by omega]
      exact ih _ _ _ (by omega) (by rw [List.length_set]; omega)

/-- Reading a byte of a drop/take slice. -/
theorem getD_drop_take (l : List Nat) (o n j : Nat) (hj : j < n) :
    ((l.drop o).take n).getD j 0 = l.getD (o + j) 0 := by
  rw [List.getD_eq_getElem?_getD, List.getD_eq_getElem?_getD]
  rw [List.getElem?_take, if_pos hj]
  rw [List.getElem?_drop]

/-- Length of an in-bounds drop/take slice. -/
theorem length_drop_take (l : List Nat) (o n : Nat) (h : o + n ≤ l.length) :
    ((l.drop o).take n).length = n := by
  rw [List.length_take, List.length_drop]
  omega

/-- The (possibly wrapping) two-step copy of `nativeRingBufferWrite`:
the result keeps the store's length, holds byte `src[o + j]` at ring
position `(pos + j) % cap` for every `j < len`, and leaves every
position outside the written region unchanged. -/
theorem twoCopy_spec (dta src : List Nat) (pos o len cap : Nat) (d2 : List Nat)
    (hdta : dta.length = cap) (hpos : pos < cap) (hlen : len ≤ cap)
    (hsrc : o + len ≤ src.length)
    (hd2 : d2 = if len > min len (cap - pos)
        then listCopy (listCopy dta pos ((src.drop o).take (min len (cap - pos)))) 0
               ((src.drop (o + min len (cap - pos))).take (len - min len (cap - pos)))
        else listCopy dta pos ((src.drop o).take (min len (cap - pos)))) :
    d2.length = cap ∧
    (∀ j, j < len → d2.getD ((pos + j) % cap) 0 = src.getD (o + j) 0) ∧
    (∀ i, i < cap → (∀ j, j < len → (pos + j) % cap ≠ i) →
      d2.getD i 0 = dta.getD i 0) := by
  by_cases hw : len > min len (cap - pos)
  · -- wrapping copy
    have htw : min len (cap - pos) = cap - pos := by omega
    rw [if_pos hw, htw] at hd2
    have hb1len : ((src.drop o).take (cap - pos)).length = cap - pos :=
      length_drop_take _ _ _ (by omega)
    have hb2len : ((src.drop (o + (cap - pos))).take (len - (cap - pos))).length
        = len - (cap - pos) :=
      length_drop_take _ _ _ (by omega)
    have hd1len : (listCopy dta pos ((src.drop o).take (cap - pos))).length = cap := by
      rw [listCopy_length, hdta]
    have hrem : len - (cap - pos) ≤ pos := by omega
    refine ⟨?_, ?_, ?_⟩
    · rw [hd2, listCopy_length, hd1len]
    · intro j hj
      by_cases hjtw : j < cap - pos
      · have hmod : (pos + j) % cap = pos + j := Nat.mod_eq_of_lt (by omega)
        rw [hmod, hd2]
        rw [listCopy_getD_hi _ _ _ _ (by omega)]
        have hin := listCopy_getD_in ((src.drop o).take (cap - pos)) dta pos j
          (by omega) (by omega)
        rw [hin, getD_drop_take _ _ _ _ (by omega)]
      · have hx : pos + j = cap + (j - (cap - pos)) := by omega
        have hxlt : j - (cap - pos) < len - (cap - pos) := by omega
        have hmod : (pos + j) % cap = j - (cap - pos) := by
          rw [hx, Nat.add_mod_left]
          exact Nat.mod_eq_of_lt (by omega)
        rw [hmod, hd2]
        have hin := listCopy_getD_in ((src.drop (o + (cap - pos))).take (len - (cap - pos)))
          (listCopy dta pos ((src.drop o).take (cap - pos))) 0 (j - (cap - pos))
          (by omega) (by omega)
        rw [Nat.zero_add] at hin
        rw [hin, getD_drop_take _ _ _ _ (by omega)]
        congr 1
        omega
    · intro i hi hunt
      have hipos : i < pos := by
        by_contra hc
        have hj : i - pos < len := by omega
        have := hunt (i - pos) hj
        rw [show pos + (i - pos) = i by omega, Nat.mod_eq_of_lt hi] at this
        exact this rfl
      have hirem : len - (cap - pos) ≤ i := by
        by_contra hc
        have hj : (cap - pos) + i < len := by omega
        have := hunt ((cap - pos) + i) hj
        rw [show pos + ((cap - pos) + i) = cap + i by omega, Nat.add_mod_left,
          Nat.mod_eq_of_lt hi] at this
        exact this rfl
      rw [hd2, listCopy_getD_hi _ _ _ _ (by omega),
        listCopy_getD_lo _ _ _ _ (by omega)]
  · -- single copy
    have htw : min len (cap - pos) = len := by omega
    have hfit : pos + len ≤ cap := by omega
    rw [if_neg hw, htw] at hd2
    have hblen : ((src.drop o).take len).length = len :=
      length_drop_take _ _ _ (by omega)
    refine ⟨?_, ?_, ?_⟩
    · rw [hd2, listCopy_length, hdta]
    · intro j hj
      have hmod : (pos + j) % cap = pos + j := Nat.mod_eq_of_lt (by omega)
      rw [hmod, hd2]
      have hin := listCopy_getD_in ((src.drop o).take len) dta pos j (by omega) (by omega)
      rw [hin, getD_drop_take _ _ _ _ (by omega)]
    · intro i hi hunt
      have hout : i < pos ∨ pos + len ≤ i := by
        by_contra hc
        push_neg at hc
        obtain ⟨h1, h2⟩ := hc
        have hj : i - pos < len := by omega
        have := hunt (i - pos) hj
        rw [show pos + (i - pos) = i by omega, Nat.mod_eq_of_lt hi] at this
        exact this rfl
      rcases hout with h | h
      · rw [hd2, listCopy_getD_lo _ _ _ _ h]
      · rw [hd2, listCopy_getD_hi _ _ _ _ (by omega)]

/-- Within `jint` range the wrapping sum is the true sum. -/
theorem jintAdd_eq (a b : Int) (ha : 0 ≤ a) (hb : 0 ≤ b)
    (hab : a + b < 2147483648) : jintAdd a b = a + b := by
  unfold jintAdd
  omega

/-- C10 (amended): for a source array of `jint`-representable length,
`nativeRingBufferWrite` returns `-1` with the state unchanged on the
arguments its check rejects (negative offset/length, a slice whose
wrapping 32-bit signed sum `offset + length` exceeds the array length,
or a failed array pin — an out-of-bounds slice whose sum wraps at
`2^31` escapes this check); returns `0` with the state unchanged when
the computed free space is below `length`; returns `-1` with the state
unchanged when `write_pos` would overflow `2^64 - 1`; and otherwise, on
every in-bounds slice, succeeds: it returns `length`, copies exactly
`length` bytes wrapping at the capacity boundary while leaving all
other bytes and the read side unchanged, and advances `write_pos` by
exactly `length` — except when the new position reaches
`2^64 - 1 - capacity`, where the code instead reduces the position by
the capacity mask and increments `write_seq` modulo `2^32 - 1` (the
wraparound the original claim omits). -/
theorem c10_write_characterization (rb : RingBuffer) (src : List Nat)
    (offset length : Int) (srcOk : Bool) (k : Nat)
    (hcap : rb.capacity = 2 ^ k) (hdata : rb.data.length = rb.capacity)
    (hsrcLen : (src.length : Int) < 2147483648) :
    ((length < 0 ∨ offset < 0 ∨ jintAdd offset length > (src.length : Int) ∨ srcOk = false) →
       nativeRingBufferWrite rb src offset length srcOk = (-1, rb)) ∧
    (0 ≤ length → 0 ≤ offset → offset + length ≤ (src.length : Int) → srcOk = true →
     rbAvailable rb < length.toNat →
       nativeRingBufferWrite rb src offset length srcOk = (0, rb)) ∧
    (0 ≤ length → 0 ≤ offset → offset + length ≤ (src.length : Int) → srcOk = true →
     length.toNat ≤ rbAvailable rb → (U64 - 1) - length.toNat < rb.writePos →
       nativeRingBufferWrite rb src offset length srcOk = (-1, rb)) ∧
    (0 ≤ length → 0 ≤ offset → offset + length ≤ (src.length : Int) → srcOk = true →
     length.toNat ≤ rbAvailable rb → rb.writePos ≤ (U64 - 1) - length.toNat →
       (nativeRingBufferWrite rb src offset length srcOk).1 = length ∧
       (∀ j, j < length.toNat →
         (nativeRingBufferWrite rb src offset length srcOk).2.data.getD
             ((rb.writePos % rb.capacity + j) % rb.capacity) 0
           = src.getD (offset.toNat + j) 0) ∧
       (∀ i, i < rb.capacity →
         (∀ j, j < length.toNat → (rb.writePos % rb.capacity + j) % rb.capacity ≠ i) →
         (nativeRingBufferWrite rb src offset length srcOk).2.data.getD i 0
           = rb.data.getD i 0) ∧
       (nativeRingBufferWrite rb src offset length srcOk).2.data.length = rb.data.length ∧
       (nativeRingBufferWrite rb src offset length srcOk).2.readPos = rb.readPos ∧
       (nativeRingBufferWrite rb src offset length srcOk).2.readSeq = rb.readSeq ∧
       (nativeRingBufferWrite rb src offset length srcOk).2.capacity = rb.capacity ∧
       ((U64 - 1) - rb.capacity ≤ rb.writePos + length.toNat →
          (nativeRingBufferWrite rb src offset length srcOk).2.writePos
              = (rb.writePos + length.toNat) % rb.capacity ∧
          (nativeRingBufferWrite rb src offset length srcOk).2.writeSeq
              = (rb.writeSeq + 1) % (U32 - 1)) ∧
       (rb.writePos + length.toNat < (U64 - 1) - rb.capacity →
          (nativeRingBufferWrite rb src offset length srcOk).2.writePos
              = rb.writePos + length.toNat ∧
          (nativeRingBufferWrite rb src offset length srcOk).2.writeSeq = rb.writeSeq)) := by
  have hcpos : 0 < rb.capacity := by rw [hcap]; positivity
  have hmask : ∀ x : Nat, x &&& (rb.capacity - 1) = x % rb.capacity := fun x => by
    rw [hcap]
    exact Nat.and_pow_two_sub_one_eq_mod x k
  have hposlt : rb.writePos % rb.capacity < rb.capacity := Nat.mod_lt _ hcpos
  have havcap : rbAvailable rb ≤ rb.capacity := Nat.sub_le _ _
  refine ⟨?_, ?_, ?_, ?_⟩
  · intro h
    simp only [nativeRingBufferWrite]
    by_cases h1 : length < 0 ∨ offset < 0
    · rw [if_pos h1]
    · rw [if_neg h1]
      by_cases h2 : jintAdd offset length > (src.length : Int)
      · rw [if_pos h2]
      · rw [if_neg h2]
        have h3 : srcOk = false := by
          rcases h with h | h | h | h
          · omega
          · omega
          · exact absurd h h2
          · exact h
        subst h3
        simp
  · intro hl ho hb hs hav
    subst hs
    have hja : jintAdd offset length = offset + length :=
      jintAdd_eq offset length ho hl (by omega)
    simp only [nativeRingBufferWrite]
    rw [if_neg (by omega), if_neg (by omega), if_neg (by simp), if_pos hav]
  · intro hl ho hb hs hav hov
    subst hs
    have hja : jintAdd offset length = offset + length :=
      jintAdd_eq offset length ho hl (by omega)
    simp only [nativeRingBufferWrite]
    rw [if_neg (by omega), if_neg (by omega), if_neg (by simp), if_neg (by omega),
      if_pos (by omega)]
  · intro hl ho hb hs hav hov
    subst hs
    have hja : jintAdd offset length = offset + length :=
      jintAdd_eq offset length ho hl (by omega)
    have hlencap : length.toNat ≤ rb.capacity := by omega
    have hsrc : offset.toNat + length.toNat ≤ src.length := by omega
    simp only [nativeRingBufferWrite, hmask]
    rw [if_neg (by omega), if_neg (by omega), if_neg (by simp), if_neg (by omega),
      if_neg (by omega), if_neg (by omega)]
    by_cases hw : length.toNat > min length.toNat (rb.capacity - rb.writePos % rb.capacity)
    · rw [if_pos hw, if_neg (by omega)]
      obtain ⟨hdlen, hdin, hdout⟩ := twoCopy_spec rb.data src (rb.writePos % rb.capacity)
        offset.toNat length.toNat rb.capacity
        (listCopy (listCopy rb.data (rb.writePos % rb.capacity)
            ((src.drop offset.toNat).take
              (min length.toNat (rb.capacity - rb.writePos % rb.capacity)))) 0
          ((src.drop (offset.toNat +
              min length.toNat (rb.capacity - rb.writePos % rb.capacity))).take
            (length.toNat - min length.toNat (rb.capacity - rb.writePos % rb.capacity))))
        hdata hposlt hlencap hsrc (if_pos hw).symm
      by_cases ht : (U64 - 1) - rb.capacity ≤ rb.writePos + length.toNat
      · rw [if_pos (by omega : rb.writePos + length.toNat ≥ (U64 - 1) - rb.capacity)]
        exact ⟨rfl, hdin, hdout, by rw [hdlen, hdata], rfl, rfl, rfl,
          fun _ => ⟨rfl, rfl⟩, fun hcon => absurd ht (by omega)⟩
      · rw [if_neg (by omega : ¬ rb.writePos + length.toNat ≥ (U64 - 1) - rb.capacity)]
        exact ⟨rfl, hdin, hdout, by rw [hdlen, hdata], rfl, rfl, rfl,
          fun hcon => absurd hcon (by omega), fun _ => ⟨rfl, rfl⟩⟩
    · rw [if_neg hw]
      obtain ⟨hdlen, hdin, hdout⟩ := twoCopy_spec rb.data src (rb.writePos % rb.capacity)
        offset.toNat length.toNat rb.capacity
        (listCopy rb.data (rb.writePos % rb.capacity)
          ((src.drop offset.toNat).take
            (min length.toNat (rb.capacity - rb.writePos % rb.capacity))))
        hdata hposlt hlencap hsrc (if_neg hw).symm
      by_cases ht : (U64 - 1) - rb.capacity ≤ rb.writePos + length.toNat
      · rw [if_pos (by omega : rb.writePos + length.toNat ≥ (U64 - 1) - rb.capacity)]
        exact ⟨rfl, hdin, hdout, by rw [hdlen, hdata], rfl, rfl, rfl,
          fun _ => ⟨rfl, rfl⟩, fun hcon => absurd ht (by omega)⟩
      · rw [if_neg (by omega : ¬ rb.writePos + length.toNat ≥ (U64 - 1) - rb.capacity)]
        exact ⟨rfl, hdin, hdout, by rw [hdlen, hdata], rfl, rfl, rfl,
          fun hcon => absurd hcon (by omega), fun _ => ⟨rfl, rfl⟩⟩


/-- C10 counterexample, refuting two parts of the claim.  First, the
claim says a successful write advances `write_pos` by exactly `length`:
from the state with both cursors at `2^64 - 3` (capacity 2), a one-byte
write succeeds (returns 1) but stores `write_pos = 0`, not `2^64 - 2` —
the wraparound branch (perf_ring_buffer.cpp, lines 237-241) reduced the
position by the mask and bumped `write_seq`.  Second, the claim says
invalid arguments return `-1` with the ring unchanged: the slice
`offset = 2^31 - 1`, `length = 1` is out of bounds for a one-byte
array, yet the bounds check adds the two `jint`s with a wrapping sum of
`-2^31` (line 124), so the write proceeds — it returns 1 and advances
`write_pos` — instead of returning `-1`. -/
theorem c10_wraparound_counterexample :
    (nativeRingBufferWrite c10rb [5] 0 1 true).1 = 1 ∧
    (nativeRingBufferWrite c10rb [5] 0 1 true).2.writePos = 0 ∧
    (nativeRingBufferWrite c10rb [5] 0 1 true).2.writeSeq = 1 ∧
    (c10rb.writePos + 1) % U64 = U64 - 2 ∧
    (0 : Nat) ≠ U64 - 2 ∧
    (2147483647 : Int) + 1 > (([5] : List Nat).length : Int) ∧
    jintAdd 2147483647 1 = -2147483648 ∧
    (nativeRingBufferWrite c10wrb [5] 2147483647 1 true).1 = 1 ∧
    (nativeRingBufferWrite c10wrb [5] 2147483647 1 true).2.writePos
      = c10wrb.writePos + 1 := by
  decide

/-- C10 witness: a one-byte write into a fresh capacity-4 buffer
returns 1 and stores the byte at ring position 0. -/
theorem c10_write_characterization_witness :
    (0 ≤ (1 : Int) ∧ 0 ≤ (0 : Int) ∧ (0 : Int) + 1 ≤ (([5] : List Nat).length : Int) ∧
     (1 : Int).toNat ≤ rbAvailable c10wrb ∧
     c10wrb.writePos ≤ (U64 - 1) - (1 : Int).toNat) ∧
    (nativeRingBufferWrite c10wrb [5] 0 1 true).1 = 1 ∧
    (nativeRingBufferWrite c10wrb [5] 0 1 true).2.data.getD
        ((c10wrb.writePos % c10wrb.capacity + 0) % c10wrb.capacity) 0
      = ([5] : List Nat).getD ((0 : Int).toNat + 0) 0 := by
  refine ⟨⟨by decide, by decide, by decide, by decide, by decide⟩, ?_, ?_⟩
  · exact ((c10_write_characterization c10wrb [5] 0 1 true 2 (by decide) (by decide)
      (by decide)).2.2.2
      (by decide) (by decide) (by decide) rfl (by decide) (by decide)).1
  · exact ((c10_write_characterization c10wrb [5] 0 1 true 2 (by decide) (by decide)
      (by decide)).2.2.2
      (by decide) (by decide) (by decide) rfl (by decide) (by decide)).2.1 0 (by decide)


/-! ## C8: connection-pool no-double-close -/

/-- Removing or inserting an element in the middle of a nested append is
a permutation with a cons. -/
theorem mid_perm (A B C D : List Int) (x : Int) :
    (A ++ (B ++ x :: C) ++ D).Perm (x :: (A ++ (B ++ C) ++ D)) := by
  have h := @List.perm_middle Int x (A ++ B) (C ++ D)
  simpa [List.append_assoc] using h

/-- Replacing a slot by one with the same fd keeps the fd list. -/
theorem set_fd_preserves : ∀ (slots : List ConnectionSlot) (i : Nat) (s' : ConnectionSlot),
    s'.fd = (slots.getD i dummySlot).fd →
    (slots.set i s').map (fun s => s.fd) = slots.map (fun s => s.fd) := by
  intro slots
  induction slots with
  | nil => intro i s' _; rfl
  | cons hd tl ih =>
    intro i s' h
    cases i with
    | zero =>
      simp only [List.set_cons_zero, List.map_cons]
      rw [show s'.fd = hd.fd from h]
    | succ m =>
      simp only [List.set_cons_succ, List.map_cons]
      rw [ih m s' h]

/-- Reading through `map (·.fd)`. -/
theorem getD_map_fd (slots : List ConnectionSlot) (i : Nat) (hi : i < slots.length) :
    (slots.map (fun s => s.fd)).getD i (-1) = (slots.getD i dummySlot).fd := by
  rw [List.getD_eq_getElem?_getD, List.getD_eq_getElem?_getD, List.getElem?_map]
  rw [List.getElem?_eq_getElem hi]
  rfl

/-- Invalidating a nonnegative fd removes exactly its occurrence from the filtered fd list. -/
theorem filter_set_neg : ∀ (l : List Int) (i : Nat), i < l.length → 0 ≤ l.getD i (-1) →
    ∃ B C, l.filter (fun f => decide (0 ≤ f)) = B ++ l.getD i (-1) :: C ∧
      (l.set i (-1)).filter (fun f => decide (0 ≤ f)) = B ++ C := by
  intro l
  induction l with
  | nil => intro i hi _; simp at hi
  | cons hd tl ih =>
    intro i hi hf
    cases i with
    | zero =>
      refine ⟨[], tl.filter (fun f => decide (0 ≤ f)), ?_, ?_⟩
      · have hhd : (hd :: tl).getD 0 (-1) = hd := rfl
        rw [hhd] at hf ⊢
        simp only [List.filter_cons, List.nil_append]
        rw [if_pos (by simpa using hf)]
      · simp only [List.set_cons_zero, List.filter_cons]
        rw [if_neg (by simp)]
        rfl
    | succ m =>
      have hm : m < tl.length := by simpa using hi
      have hgd : (hd :: tl).getD (m + 1) (-1) = tl.getD m (-1) := rfl
      rw [hgd] at hf ⊢
      obtain ⟨B, C, hB, hC⟩ := ih m hm hf
      by_cases hhd : 0 ≤ hd
      · refine ⟨hd :: B, C, ?_, ?_⟩
        · simp only [List.filter_cons]
          rw [if_pos (by simpa using hhd), hB]
          rfl
        · simp only [List.set_cons_succ, List.filter_cons]
          rw [if_pos (by simpa using hhd), hC]
          rfl
      · refine ⟨B, C, ?_, ?_⟩
        · simp only [List.filter_cons]
          rw [if_neg (by simpa using hhd), hB]
        · simp only [List.set_cons_succ, List.filter_cons]
          rw [if_neg (by simpa using hhd), hC]

/-- Installing a nonnegative fd over a negative one inserts it into the filtered fd list. -/
theorem filter_set_pos : ∀ (l : List Int) (i : Nat) (x : Int), i < l.length →
    l.getD i (-1) < 0 → 0 ≤ x →
    ∃ B C, l.filter (fun f => decide (0 ≤ f)) = B ++ C ∧
      (l.set i x).filter (fun f => decide (0 ≤ f)) = B ++ x :: C := by
  intro l
  induction l with
  | nil => intro i x hi _ _; simp at hi
  | cons hd tl ih =>
    intro i x hi hneg hx
    cases i with
    | zero =>
      have hhd : (hd :: tl).getD 0 (-1) = hd := rfl
      rw [hhd] at hneg
      refine ⟨[], tl.filter (fun f => decide (0 ≤ f)), ?_, ?_⟩
      · simp only [List.filter_cons, List.nil_append]
        rw [if_neg (by simp; omega)]
      · simp only [List.set_cons_zero, List.filter_cons]
        rw [if_pos (by simpa using hx)]
        rfl
    | succ m =>
      have hm : m < tl.length := by simpa using hi
      have hgd : (hd :: tl).getD (m + 1) (-1) = tl.getD m (-1) := rfl
      rw [hgd] at hneg
      obtain ⟨B, C, hB, hC⟩ := ih m x hm hneg hx
      by_cases hhd : 0 ≤ hd
      · refine ⟨hd :: B, C, ?_, ?_⟩
        · simp only [List.filter_cons]
          rw [if_pos (by simpa using hhd), hB]
          rfl
        · simp only [List.set_cons_succ, List.filter_cons]
          rw [if_pos (by simpa using hhd), hC]
          rfl
      · refine ⟨B, C, ?_, ?_⟩
        · simp only [List.filter_cons]
          rw [if_neg (by simpa using hhd), hB]
        · simp only [List.set_cons_succ, List.filter_cons]
          rw [if_neg (by simpa using hhd), hC]

/-- The global fd list decomposes around any one pool, and updating that pool replaces exactly its segment. -/
theorem connNonnegFds_decomp (st : ConnState) (ptn : Nat) (hpt : ptn < 3) :
    ∃ A D, connNonnegFds st = A ++ poolOpenFds (getPool st ptn) ++ D ∧
      (∀ p' : ConnPool, ∀ nf cl op,
        connNonnegFds { setPool st ptn p' with nextFd := nf, closedLog := cl, openedLog := op }
          = A ++ poolOpenFds p' ++ D) ∧
      (∀ p' : ConnPool, connNonnegFds (setPool st ptn p') = A ++ poolOpenFds p' ++ D) := by
  interval_cases ptn
  · exact ⟨[], poolOpenFds st.pool1 ++ poolOpenFds st.pool2, by
      simp [connNonnegFds, getPool], fun p' nf cl op => by
      simp [connNonnegFds, setPool], fun p' => by simp [connNonnegFds, setPool]⟩
  · exact ⟨poolOpenFds st.pool0, poolOpenFds st.pool2, by
      simp [connNonnegFds, getPool], fun p' nf cl op => by
      simp [connNonnegFds, setPool], fun p' => by simp [connNonnegFds, setPool]⟩
  · exact ⟨poolOpenFds st.pool0 ++ poolOpenFds st.pool1, [], by
      simp [connNonnegFds, getPool], fun p' nf cl op => by
      simp [connNonnegFds, setPool], fun p' => by simp [connNonnegFds, setPool]⟩

/-- The invariant transports along states with identical fds, close log and counter. -/
theorem inv_of_same (st st' : ConnState) (h1 : connNonnegFds st' = connNonnegFds st)
    (h2 : st'.closedLog = st.closedLog) (h3 : st'.nextFd = st.nextFd)
    (hinv : ConnInv st) : ConnInv st' := by
  obtain ⟨i1, i2, i3, i4, i5⟩ := hinv
  exact ⟨h2 ▸ i1, h2 ▸ h3 ▸ i2, h1 ▸ h3 ▸ i3, h1 ▸ h2 ▸ i4, h1 ▸ i5⟩

/-- A nonnegative `findSlotIndexByFd` result is in range and designates a slot holding the fd. -/
theorem find_mem : ∀ (slots : List ConnectionSlot) (fd : Int),
    0 ≤ findSlotIndexByFd slots fd →
    (findSlotIndexByFd slots fd).toNat < slots.length ∧
      (slots.getD (findSlotIndexByFd slots fd).toNat dummySlot).fd = fd := by
  intro slots
  induction slots with
  | nil => intro fd h; simp [findSlotIndexByFd] at h
  | cons s rest ih =>
    intro fd h
    by_cases hs : s.fd = fd
    · constructor
      · simp [findSlotIndexByFd, hs]
      · simp only [findSlotIndexByFd, if_pos hs]
        exact hs
    · simp only [findSlotIndexByFd, if_neg hs] at h ⊢
      by_cases hr : findSlotIndexByFd rest fd < 0
      · rw [if_pos hr] at h
        omega
      · rw [if_neg hr] at h ⊢
        have h0 : 0 ≤ findSlotIndexByFd rest fd := by omega
        obtain ⟨hlt, hfd⟩ := ih fd h0
        have ht : (findSlotIndexByFd rest fd + 1).toNat
            = (findSlotIndexByFd rest fd).toNat + 1 := by omega
        rw [ht]
        constructor
        · simpa using hlt
        · exact hfd

/-- The acquire scan ends in one of four shapes: untouched, open-then-close of a fresh fd on `fcntl` failure, reuse of an existing fd, or installation of a fresh fd in a free slot. -/
theorem acquireLoop_cases (sockOk cfgOk : Bool) : ∀ (slots : List ConnectionSlot) (nextFd : Nat),
    ((acquireLoop slots nextFd sockOk cfgOk).slots = slots ∧
     (acquireLoop slots nextFd sockOk cfgOk).nextFd = nextFd ∧
     (acquireLoop slots nextFd sockOk cfgOk).closed = [] ∧
     (acquireLoop slots nextFd sockOk cfgOk).opened = []) ∨
    ((acquireLoop slots nextFd sockOk cfgOk).slots = slots ∧
     (acquireLoop slots nextFd sockOk cfgOk).nextFd = nextFd + 1 ∧
     (acquireLoop slots nextFd sockOk cfgOk).closed = [(nextFd : Int)] ∧
     (acquireLoop slots nextFd sockOk cfgOk).opened = [(nextFd : Int)]) ∨
    (∃ i, i < slots.length ∧
     (acquireLoop slots nextFd sockOk cfgOk).slots =
       slots.set i { slots.getD i dummySlot with in_use := true, connected := false } ∧
     (acquireLoop slots nextFd sockOk cfgOk).nextFd = nextFd ∧
     (acquireLoop slots nextFd sockOk cfgOk).closed = [] ∧
     (acquireLoop slots nextFd sockOk cfgOk).opened = []) ∨
    (∃ i, i < slots.length ∧ (slots.getD i dummySlot).fd < 0 ∧
     (acquireLoop slots nextFd sockOk cfgOk).slots =
       slots.set i { slots.getD i dummySlot with
         fd := (nextFd : Int), in_use := true, connected := false } ∧
     (acquireLoop slots nextFd sockOk cfgOk).nextFd = nextFd + 1 ∧
     (acquireLoop slots nextFd sockOk cfgOk).closed = [] ∧
     (acquireLoop slots nextFd sockOk cfgOk).opened = [(nextFd : Int)]) := by
  intro slots
  induction slots with
  | nil =>
    intro nextFd
    exact Or.inl ⟨rfl, rfl, rfl, rfl⟩
  | cons s rest ih =>
    intro nextFd
    by_cases hu : s.in_use
    · have hstep : acquireLoop (s :: rest) nextFd sockOk cfgOk =
          ⟨(acquireLoop rest nextFd sockOk cfgOk).ret,
           s :: (acquireLoop rest nextFd sockOk cfgOk).slots,
           (acquireLoop rest nextFd sockOk cfgOk).nextFd,
           (acquireLoop rest nextFd sockOk cfgOk).closed,
           (acquireLoop rest nextFd sockOk cfgOk).opened⟩ := by
        simp only [acquireLoop, if_pos hu]
      rcases ih nextFd with ⟨h1, h2, h3, h4⟩ | ⟨h1, h2, h3, h4⟩ |
        ⟨i, hi, h1, h2, h3, h4⟩ | ⟨i, hi, hneg, h1, h2, h3, h4⟩
      · exact Or.inl ⟨by rw [hstep]; simp [h1], by rw [hstep]; exact h2,
          by rw [hstep]; exact h3, by rw [hstep]; exact h4⟩
      · exact Or.inr (Or.inl ⟨by rw [hstep]; simp [h1], by rw [hstep]; exact h2,
          by rw [hstep]; exact h3, by rw [hstep]; exact h4⟩)
      · refine Or.inr (Or.inr (Or.inl ⟨i + 1, by simpa using hi, ?_, ?_, ?_, ?_⟩))
        · rw [hstep]
          show s :: _ = (s :: rest).set (i + 1) _
          rw [List.set_cons_succ]
          rw [h1]
          rfl
        · rw [hstep]; exact h2
        · rw [hstep]; exact h3
        · rw [hstep]; exact h4
      · refine Or.inr (Or.inr (Or.inr ⟨i + 1, by simpa using hi, hneg, ?_, ?_, ?_, ?_⟩))
        · rw [hstep]
          show s :: _ = (s :: rest).set (i + 1) _
          rw [List.set_cons_succ]
          rw [h1]
          rfl
        · rw [hstep]; exact h2
        · rw [hstep]; exact h3
        · rw [hstep]; exact h4
    · by_cases hneg : s.fd < 0
      · by_cases hso : sockOk
        · by_cases hco : cfgOk
          · refine Or.inr (Or.inr (Or.inr ⟨0, by simp, hneg, ?_, ?_, ?_, ?_⟩)) <;>
              simp only [acquireLoop, if_neg hu, if_pos hneg, hso, hco,
                not_true_eq_false, if_false, ite_false] <;> rfl
          · refine Or.inr (Or.inl ⟨?_, ?_, ?_, ?_⟩) <;>
              simp only [acquireLoop, if_neg hu, if_pos hneg, hso, hco,
                not_true_eq_false, not_false_eq_true, if_false, if_true, ite_false,
                ite_true] <;> rfl
        · refine Or.inl ⟨?_, ?_, ?_, ?_⟩ <;>
            simp only [acquireLoop, if_neg hu, if_pos hneg, hso,
              not_false_eq_true, if_true, ite_true] <;> rfl
      · refine Or.inr (Or.inr (Or.inl ⟨0, by simp, ?_, ?_, ?_, ?_⟩)) <;>
          simp only [acquireLoop, if_neg hu, if_neg hneg] <;> rfl

/-- A pool of freshly reset slots holds no open fd. -/
theorem poolOpenFds_replicate (n : Nat) (pidx : Nat) (b : Bool) :
    poolOpenFds ⟨List.replicate n (freshSlot pidx), b⟩ = [] := by
  induction n with
  | zero => rfl
  | succ m ih =>
    simp only [poolOpenFds, List.replicate_succ, List.map_cons, List.filter_cons] at ih ⊢
    rw [if_neg (by simp [freshSlot])]
    exact ih

/-- `setPool` touches no scalar bookkeeping field. -/
theorem setPool_scalars (st : ConnState) (ptn : Nat) (p' : ConnPool) :
    (setPool st ptn p').closedLog = st.closedLog ∧
    (setPool st ptn p').nextFd = st.nextFd ∧
    (setPool st ptn p').openedLog = st.openedLog := by
  unfold setPool
  split
  · exact ⟨rfl, rfl, rfl⟩
  · split
    · exact ⟨rfl, rfl, rfl⟩
    · exact ⟨rfl, rfl, rfl⟩

/-- A slot update that keeps the fd preserves the invariant. -/
theorem inv_setPool_samefd (st : ConnState) (ptn : Nat) (hpt : ptn < 3) (idx : Nat)
    (s' : ConnectionSlot) (b : Bool)
    (hfd : s'.fd = ((getPool st ptn).slots.getD idx dummySlot).fd)
    (hinv : ConnInv st) :
    ConnInv (setPool st ptn ⟨(getPool st ptn).slots.set idx s', b⟩) := by
  obtain ⟨A, D, hAD, hset2, hset3⟩ := connNonnegFds_decomp st ptn hpt
  obtain ⟨hc, hn, _⟩ := setPool_scalars st ptn ⟨(getPool st ptn).slots.set idx s', b⟩
  apply inv_of_same st _ _ hc hn hinv
  rw [hset3, hAD]
  have hp : poolOpenFds ⟨(getPool st ptn).slots.set idx s', b⟩
      = poolOpenFds (getPool st ptn) := by
    unfold poolOpenFds
    rw [set_fd_preserves _ _ _ hfd]
  rw [hp]

/-- `nativeInitConnectionPool` closes each open fd once and resets. -/
theorem inv_init (st : ConnState) (n : Int) (hinv : ConnInv st) :
    ConnInv (nativeInitConnectionPool st n) := by
  obtain ⟨i1, i2, i3, i4, i5⟩ := hinv
  have hclosed : (nativeInitConnectionPool st n).closedLog
      = st.closedLog ++ connNonnegFds st := by
    simp [nativeInitConnectionPool, connNonnegFds]
  have hfds : connNonnegFds (nativeInitConnectionPool st n) = [] := by
    simp [connNonnegFds, nativeInitConnectionPool, poolOpenFds_replicate]
  have hnext : (nativeInitConnectionPool st n).nextFd = st.nextFd := by
    simp [nativeInitConnectionPool]
  refine ⟨?_, ?_, ?_, ?_, ?_⟩
  · rw [hclosed, List.nodup_append]
    exact ⟨i1, i5, fun a ha ha' => i4 a ha' ha⟩
  · rw [hclosed, hnext]
    intro f hf
    rcases List.mem_append.mp hf with h | h
    · exact i2 f h
    · exact i3 f h
  · rw [hfds]
    intro f hf
    simp at hf
  · rw [hfds]
    intro f hf
    simp at hf
  · rw [hfds]
    exact List.nodup_nil

/-- `nativeDestroyConnectionPool` closes each open fd once and clears. -/
theorem inv_destroy (st : ConnState) (hinv : ConnInv st) :
    ConnInv (nativeDestroyConnectionPool st) := by
  obtain ⟨i1, i2, i3, i4, i5⟩ := hinv
  have hclosed : (nativeDestroyConnectionPool st).closedLog
      = st.closedLog ++ connNonnegFds st := by
    simp [nativeDestroyConnectionPool, connNonnegFds]
  have hfds : connNonnegFds (nativeDestroyConnectionPool st) = [] := by
    simp [connNonnegFds, nativeDestroyConnectionPool, poolOpenFds]
  have hnext : (nativeDestroyConnectionPool st).nextFd = st.nextFd := by
    simp [nativeDestroyConnectionPool]
  refine ⟨?_, ?_, ?_, ?_, ?_⟩
  · rw [hclosed, List.nodup_append]
    exact ⟨i1, i5, fun a ha ha' => i4 a ha' ha⟩
  · rw [hclosed, hnext]
    intro f hf
    rcases List.mem_append.mp hf with h | h
    · exact i2 f h
    · exact i3 f h
  · rw [hfds]
    intro f hf
    simp at hf
  · rw [hfds]
    intro f hf
    simp at hf
  · rw [hfds]
    exact List.nodup_nil

/-- `nativeGetPooledSocket` preserves the invariant in all four scan shapes. -/
theorem inv_acquire (st : ConnState) (pt : Int) (so co : Bool) (hinv : ConnInv st) :
    ConnInv (nativeGetPooledSocket st pt so co).2 := by
  by_cases hg : pt < 0 ∨ pt ≥ 3
  · simp only [nativeGetPooledSocket, if_pos hg]
    exact hinv
  · simp only [nativeGetPooledSocket, if_neg hg]
    have hpt : pt.toNat < 3 := by omega
    obtain ⟨A, D, hAD, hset2, hset3⟩ := connNonnegFds_decomp st pt.toNat hpt
    obtain ⟨i1, i2, i3, i4, i5⟩ := hinv
    rcases acquireLoop_cases so co (getPool st pt.toNat).slots st.nextFd with
      ⟨h1, h2, h3, h4⟩ | ⟨h1, h2, h3, h4⟩ | ⟨i, hi, h1, h2, h3, h4⟩ |
      ⟨i, hi, hneg, h1, h2, h3, h4⟩
    · rw [h1, h2, h3, h4]
      apply inv_of_same st
      · rw [hset2, hAD]
      · simp
      · rfl
      · exact ⟨i1, i2, i3, i4, i5⟩
    · rw [h1, h2, h3, h4]
      have hfds : connNonnegFds
          { setPool st pt.toNat ⟨(getPool st pt.toNat).slots, (getPool st pt.toNat).initialized⟩ with
            nextFd := st.nextFd + 1
            closedLog := st.closedLog ++ [(st.nextFd : Int)]
            openedLog := st.openedLog ++ [(st.nextFd : Int)] } = connNonnegFds st := by
        rw [hset2, hAD]
      refine ⟨?_, ?_, ?_, ?_, ?_⟩
      · show (st.closedLog ++ [(st.nextFd : Int)]).Nodup
        rw [List.nodup_append]
        refine ⟨i1, List.nodup_singleton _, ?_⟩
        intro a ha hb
        have := i2 a ha
        simp at hb
        omega
      · show ∀ f ∈ st.closedLog ++ [(st.nextFd : Int)], f < ((st.nextFd + 1 : Nat) : Int)
        intro f hf
        rcases List.mem_append.mp hf with h | h
        · have := i2 f h
          push_cast
          omega
        · simp at h
          push_cast
          omega
      · rw [hfds]
        intro f hf
        have := i3 f hf
        push_cast
        omega
      · rw [hfds]
        intro f hf
        show f ∉ st.closedLog ++ [(st.nextFd : Int)]
        rw [List.mem_append]
        rintro (h | h)
        · exact i4 f hf h
        · have := i3 f hf
          simp at h
          omega
      · rw [hfds]
        exact i5
    · rw [h1, h2, h3, h4]
      apply inv_of_same st
      · rw [hset2, hAD]
        have hsp := set_fd_preserves (getPool st pt.toNat).slots i
          ({ (getPool st pt.toNat).slots.getD i dummySlot with
             in_use := true, connected := false }) rfl
        have hp : poolOpenFds (⟨(getPool st pt.toNat).slots.set i
            { (getPool st pt.toNat).slots.getD i dummySlot with
              in_use := true, connected := false },
            (getPool st pt.toNat).initialized⟩ : ConnPool)
            = poolOpenFds (getPool st pt.toNat) := by
          unfold poolOpenFds
          rw [hsp]
        rw [hp]
      · simp
      · rfl
      · exact ⟨i1, i2, i3, i4, i5⟩
    · rw [h1, h2, h3, h4]
      have hmfd : ((getPool st pt.toNat).slots.map (fun s => s.fd)).getD i (-1)
          = ((getPool st pt.toNat).slots.getD i dummySlot).fd := getD_map_fd _ _ hi
      obtain ⟨B, C, hB, hC⟩ := filter_set_pos ((getPool st pt.toNat).slots.map (fun s => s.fd))
        i (st.nextFd : Int) (by simpa using hi) (by rw [hmfd]; exact hneg)
        (by positivity)
      have hnew : poolOpenFds (⟨(getPool st pt.toNat).slots.set i
          { (getPool st pt.toNat).slots.getD i dummySlot with
            fd := (st.nextFd : Int), in_use := true, connected := false },
          (getPool st pt.toNat).initialized⟩ : ConnPool) = B ++ (st.nextFd : Int) :: C := by
        unfold poolOpenFds
        rw [List.map_set]
        exact hC
      have hold : poolOpenFds (getPool st pt.toNat) = B ++ C := hB
      have hfdsnew : connNonnegFds
          { setPool st pt.toNat ⟨(getPool st pt.toNat).slots.set i
              { (getPool st pt.toNat).slots.getD i dummySlot with
                fd := (st.nextFd : Int), in_use := true, connected := false },
              (getPool st pt.toNat).initialized⟩ with
            nextFd := st.nextFd + 1
            closedLog := st.closedLog ++ []
            openedLog := st.openedLog ++ [(st.nextFd : Int)] }
          = A ++ (B ++ (st.nextFd : Int) :: C) ++ D := by
        rw [hset2, hnew]
      have hfdsold : connNonnegFds st = A ++ (B ++ C) ++ D := by
        rw [hAD, hold]
      have hperm := mid_perm A B C D (st.nextFd : Int)
      have hxnotin : (st.nextFd : Int) ∉ A ++ (B ++ C) ++ D := by
        intro hmem
        have := i3 (st.nextFd : Int) (by rw [hfdsold]; exact hmem)
        omega
      refine ⟨?_, ?_, ?_, ?_, ?_⟩
      · show (st.closedLog ++ []).Nodup
        simpa using i1
      · show ∀ f ∈ st.closedLog ++ [], f < ((st.nextFd + 1 : Nat) : Int)
        intro f hf
        simp only [List.append_nil] at hf
        have := i2 f hf
        push_cast
        omega
      · rw [hfdsnew]
        intro f hf
        have hf2 : f ∈ (st.nextFd : Int) :: (A ++ (B ++ C) ++ D) := hperm.mem_iff.mp hf
        rcases List.mem_cons.mp hf2 with h | h
        · subst h
          push_cast
          omega
        · have := i3 f (by rw [hfdsold]; exact h)
          push_cast
          omega
      · rw [hfdsnew]
        intro f hf
        show f ∉ st.closedLog ++ []
        simp only [List.append_nil]
        have hf2 : f ∈ (st.nextFd : Int) :: (A ++ (B ++ C) ++ D) := hperm.mem_iff.mp hf
        rcases List.mem_cons.mp hf2 with h | h
        · subst h
          intro hmem
          have := i2 _ hmem
          omega
        · exact i4 f (by rw [hfdsold]; exact h)
      · rw [hfdsnew]
        rw [hperm.nodup_iff]
        rw [List.nodup_cons]
        exact ⟨hxnotin, by rw [← hfdsold]; exact i5⟩

/-- The fd list ignores the close log. -/
theorem connNonnegFds_closedLog (y : ConnState) (e : List Int) :
    connNonnegFds { y with closedLog := e } = connNonnegFds y := rfl

/-- Invalidating (setting the fd to -1) and closing the fd of one slot preserves the invariant: the fd leaves the open set exactly as it enters the close log. -/
theorem inv_close_slot (st : ConnState) (ptn : Nat) (hpt : ptn < 3) (i : Nat)
    (st' : ConnState)
    (hi : i < (getPool st ptn).slots.length)
    (hf : 0 ≤ ((getPool st ptn).slots.getD i dummySlot).fd)
    (hinv : ConnInv st)
    (hst' : st' = { setPool st ptn ⟨(getPool st ptn).slots.set i
        { (getPool st ptn).slots.getD i dummySlot with
          fd := -1, connected := false, in_use := false },
        (getPool st ptn).initialized⟩ with
      closedLog := st.closedLog ++ [((getPool st ptn).slots.getD i dummySlot).fd] }) :
    ConnInv st' := by
  subst hst'
  obtain ⟨A, D, hAD, hset2, hset3⟩ := connNonnegFds_decomp st ptn hpt
  obtain ⟨i1, i2, i3, i4, i5⟩ := hinv
  have hmfd := getD_map_fd (getPool st ptn).slots i hi
  obtain ⟨B, C, hB, hC⟩ := filter_set_neg ((getPool st ptn).slots.map (fun s => s.fd)) i
    (by simpa using hi) (by rw [hmfd]; exact hf)
  have hmap : ((getPool st ptn).slots.set i
      { (getPool st ptn).slots.getD i dummySlot with
        fd := -1, connected := false, in_use := false }).map (fun s => s.fd)
      = ((getPool st ptn).slots.map (fun s => s.fd)).set i (-1) := by
    rw [List.map_set]
  have hnew : poolOpenFds (⟨(getPool st ptn).slots.set i
      { (getPool st ptn).slots.getD i dummySlot with
        fd := -1, connected := false, in_use := false },
      (getPool st ptn).initialized⟩ : ConnPool) = B ++ C := by
    unfold poolOpenFds
    rw [hmap]
    exact hC
  have hold : poolOpenFds (getPool st ptn)
      = B ++ ((getPool st ptn).slots.getD i dummySlot).fd :: C := by
    show ((getPool st ptn).slots.map (fun s => s.fd)).filter (fun f => decide (0 ≤ f)) = _
    rw [hB, hmfd]
  have holdfds : connNonnegFds st
      = A ++ (B ++ ((getPool st ptn).slots.getD i dummySlot).fd :: C) ++ D := by
    rw [hAD, hold]
  have hnewfds : connNonnegFds ({ setPool st ptn ⟨(getPool st ptn).slots.set i
      { (getPool st ptn).slots.getD i dummySlot with
        fd := -1, connected := false, in_use := false },
      (getPool st ptn).initialized⟩ with
      closedLog := st.closedLog ++ [((getPool st ptn).slots.getD i dummySlot).fd] })
      = A ++ (B ++ C) ++ D := by
    rw [connNonnegFds_closedLog, hset3, hnew]
  have hperm := mid_perm A B C D ((getPool st ptn).slots.getD i dummySlot).fd
  rw [← holdfds] at hperm
  have hmemold : ((getPool st ptn).slots.getD i dummySlot).fd ∈ connNonnegFds st :=
    hperm.mem_iff.mpr (List.mem_cons_self _ _)
  have hnodupcons : (((getPool st ptn).slots.getD i dummySlot).fd
      :: (A ++ (B ++ C) ++ D)).Nodup := hperm.nodup_iff.mp i5
  have hnotin : ((getPool st ptn).slots.getD i dummySlot).fd ∉ A ++ (B ++ C) ++ D :=
    (List.nodup_cons.mp hnodupcons).1
  have hsub : ∀ x ∈ A ++ (B ++ C) ++ D, x ∈ connNonnegFds st := by
    intro x hx
    exact hperm.mem_iff.mpr (List.mem_cons_of_mem _ hx)
  obtain ⟨hc, hn, _⟩ := setPool_scalars st ptn ⟨(getPool st ptn).slots.set i
      { (getPool st ptn).slots.getD i dummySlot with
        fd := -1, connected := false, in_use := false },
      (getPool st ptn).initialized⟩
  refine ⟨?_, ?_, ?_, ?_, ?_⟩
  · show (st.closedLog ++ [((getPool st ptn).slots.getD i dummySlot).fd]).Nodup
    rw [List.nodup_append]
    refine ⟨i1, List.nodup_singleton _, ?_⟩
    intro a ha hb
    simp only [List.mem_singleton] at hb
    subst hb
    exact i4 _ hmemold ha
  · show ∀ f ∈ st.closedLog ++ [((getPool st ptn).slots.getD i dummySlot).fd], _
    intro f hf2
    show f < (((setPool st ptn _).nextFd : Nat) : Int)
    rw [hn]
    rcases List.mem_append.mp hf2 with h | h
    · exact i2 f h
    · simp only [List.mem_singleton] at h
      subst h
      exact i3 _ hmemold
  · rw [hnewfds]
    intro f hf2
    show f < (((setPool st ptn _).nextFd : Nat) : Int)
    rw [hn]
    exact i3 f (hsub f hf2)
  · rw [hnewfds]
    intro f hf2
    show f ∉ st.closedLog ++ [((getPool st ptn).slots.getD i dummySlot).fd]
    rw [List.mem_append]
    rintro (h | h)
    · exact i4 f (hsub f hf2) h
    · simp only [List.mem_singleton] at h
      subst h
      exact hnotin hf2
  · rw [hnewfds]
    exact (List.nodup_cons.mp hnodupcons).2

/-- `nativeReturnPooledSocket` preserves the invariant. -/
theorem inv_releaseSlot (st : ConnState) (pt si : Int) (hl : Bool) (hinv : ConnInv st) :
    ConnInv (nativeReturnPooledSocket st pt si hl) := by
  simp only [nativeReturnPooledSocket]
  split
  · exact hinv
  next hg =>
    split
    · exact hinv
    next hidx =>
      split
      next hfd =>
        exact inv_setPool_samefd st pt.toNat (by omega) si.toNat _ _ rfl hinv
      next hfd =>
        split
        next hh =>
          exact inv_close_slot st pt.toNat (by omega) si.toNat _
            (by push_neg at hidx; omega) (by omega) hinv rfl
        next hh =>
          exact inv_setPool_samefd st pt.toNat (by omega) si.toNat _ _ rfl hinv

/-- `nativeReturnPooledSocketByFd` preserves the invariant. -/
theorem inv_releaseFd (st : ConnState) (pt fd : Int) (hl : Bool) (hinv : ConnInv st) :
    ConnInv (nativeReturnPooledSocketByFd st pt fd hl) := by
  simp only [nativeReturnPooledSocketByFd]
  split
  · exact hinv
  next hg =>
    split
    · exact hinv
    next hidx =>
      push_neg at hg
      obtain ⟨hg1, hg2, hg3⟩ := hg
      have hfind : 0 ≤ findSlotIndexByFd (getPool st pt.toNat).slots fd := by omega
      obtain ⟨hlt, hfdeq⟩ := find_mem (getPool st pt.toNat).slots fd hfind
      split
      next hfd =>
        exact inv_setPool_samefd st pt.toNat (by omega) _ _ _ rfl hinv
      next hfd =>
        push_neg at hfd
        obtain ⟨hfd1, hfd2⟩ := hfd
        split
        next hh =>
          have hcl : st.closedLog ++ [fd] = st.closedLog
              ++ [((getPool st pt.toNat).slots.getD
                    (findSlotIndexByFd (getPool st pt.toNat).slots fd).toNat dummySlot).fd] := by
            rw [hfdeq]
          rw [hcl]
          exact inv_close_slot st pt.toNat (by omega) _ _ hlt (by omega) hinv rfl
        next hh =>
          exact inv_setPool_samefd st pt.toNat (by omega) _ _ _ rfl hinv

/-- `nativeConnectPooledSocket` never touches an fd or the close log. -/
theorem inv_connectSlot (st : ConnState) (pt si : Int) (h : Nat) (prt : Int)
    (ho ao : Bool) (oc : ConnectOutcome) (hinv : ConnInv st) :
    ConnInv (nativeConnectPooledSocket st pt si h prt ho ao oc).2 := by
  simp only [nativeConnectPooledSocket]
  split
  · exact hinv
  next hg =>
    split
    · exact hinv
    next hidx =>
      split
      · exact hinv
      next hs =>
        split
        · exact hinv
        next hho =>
          split
          · exact hinv
          next hsame =>
            split
            next hao =>
              exact inv_setPool_samefd st pt.toNat (by omega) si.toNat _ _
                (by split <;> rfl) hinv
            next hao =>
              split
              · exact inv_setPool_samefd st pt.toNat (by omega) si.toNat _ _
                  (by split <;> rfl) hinv
              · exact inv_setPool_samefd st pt.toNat (by omega) si.toNat _ _
                  (by split <;> rfl) hinv
              · exact inv_setPool_samefd st pt.toNat (by omega) si.toNat _ _
                  (by split <;> rfl) hinv

/-- `nativeConnectPooledSocketByFd` never touches an fd or the close log. -/
theorem inv_connectFd (st : ConnState) (pt fd : Int) (h : Nat) (prt : Int)
    (ho ao : Bool) (oc : ConnectOutcome) (hinv : ConnInv st) :
    ConnInv (nativeConnectPooledSocketByFd st pt fd h prt ho ao oc).2 := by
  simp only [nativeConnectPooledSocketByFd]
  split
  · exact hinv
  next hg =>
    split
    · exact hinv
    next hidx =>
      split
      · exact hinv
      next hu =>
        split
        · exact hinv
        next hho =>
          split
          · exact hinv
          next hsame =>
            split
            · exact hinv
            next hao =>
              split
              · exact inv_setPool_samefd st pt.toNat (by omega) _ _ _ rfl hinv
              · exact inv_setPool_samefd st pt.toNat (by omega) _ _ _ rfl hinv
              · exact inv_setPool_samefd st pt.toNat (by omega) _ _ _ rfl hinv

/-- Every connection-pool operation preserves the invariant. -/
theorem inv_connStep (st : ConnState) (op : ConnOp) (hinv : ConnInv st) :
    ConnInv (connStep st op) := by
  cases op with
  | initOp n => exact inv_init st n hinv
  | acquireOp pt so co => exact inv_acquire st pt so co hinv
  | connectSlotOp pt si hh prt ho ao oc => exact inv_connectSlot st pt si hh prt ho ao oc hinv
  | connectFdOp pt fd hh prt ho ao oc => exact inv_connectFd st pt fd hh prt ho ao oc hinv
  | releaseSlotOp pt si hl => exact inv_releaseSlot st pt si hl hinv
  | releaseFdOp pt fd hl => exact inv_releaseFd st pt fd hl hinv
  | destroyOp => exact inv_destroy st hinv

/-- The invariant holds at process start. -/
theorem inv_connStart : ConnInv connStart := by
  refine ⟨List.nodup_nil, ?_, ?_, ?_, List.nodup_nil⟩ <;>
    · intro f hf
      simp [connStart, connNonnegFds, poolOpenFds] at hf

/-- The invariant holds after every operation sequence. -/
theorem connRun_inv (ops : List ConnOp) : ConnInv (connRun ops) := by
  suffices h : ∀ (os : List ConnOp) (st : ConnState), ConnInv st →
      ConnInv (List.foldl connStep st os) from h ops connStart inv_connStart
  intro os
  induction os with
  | nil => exact fun st hst => hst
  | cons o rest ih =>
    intro st hst
    exact ih _ (inv_connStep st o hst)

/-- C8: across every sequence of init, acquire, connect, release and
destroy operations from process start, every fd is closed at most once.
The per-pool mutex is held for each whole operation, so concurrent
executions serialize into these sequences; under that serialization the
release path's compare-and-swap of the slot fd to the sentinel `-1`
always succeeds for the single caller that performs it, and the model's
release closes the fd exactly on that path. -/
theorem c8_no_double_close (ops : List ConnOp) (f : Int) :
    (connRun ops).closedLog.count f ≤ 1 :=
  List.nodup_iff_count_le_one.mp (connRun_inv ops).1 f
